import Mathlib

set_option maxRecDepth 8000

/-!
Verification of the phy6-js two-dimensional rigid-body physics engine.

The JavaScript sources are embedded shallowly: every machine number is
modelled as an exact rational (`ℚ`), mutation is modelled by explicit state
passing, and the transcendental functions used only for rotating geometry
are kept abstract as a pair of functions (`Trig`), since none of the
verified properties depends on their values.  Division on `ℚ` is total
(`x / 0 = 0`); every place where the source can divide by zero or produce
an IEEE infinity is marked with a comment.
-/

/-- Two-dimensional vector with exact rational coordinates
(source: Vector.js, fields x and y). -/
structure Vec where
  x : ℚ
  y : ℚ
deriving DecidableEq

instance : Inhabited Vec := ⟨⟨0, 0⟩⟩

/-- Vector.add (component-wise sum, returns a new vector). -/
def Vec.add (v w : Vec) : Vec := ⟨v.x + w.x, v.y + w.y⟩

/-- Vector.sub (component-wise difference). -/
def Vec.sub (v w : Vec) : Vec := ⟨v.x - w.x, v.y - w.y⟩

/-- Vector.scalar (multiplication by a scalar). -/
def Vec.scalar (v : Vec) (s : ℚ) : Vec := ⟨v.x * s, v.y * s⟩

/-- Vector.dot. -/
def Vec.dot (v w : Vec) : ℚ := v.x * w.x + v.y * w.y

/-- Vector.cross (two-dimensional cross product, a scalar). -/
def Vec.cross (v w : Vec) : ℚ := v.x * w.y - v.y * w.x

/-- Vector.perp (perpendicular vector, (-y, x)). -/
def Vec.perp (v : Vec) : Vec := ⟨-v.y, v.x⟩

/-- Vector.lengthSquared. -/
def Vec.lengthSquared (v : Vec) : ℚ := v.x * v.x + v.y * v.y

/-- Abstract stand-in for the two transcendental functions Math.sin and
Math.cos used by the source only to rotate geometry.  All verified
properties hold for every choice of these functions. -/
structure Trig where
  sin : ℚ → ℚ
  cos : ℚ → ℚ

/-- Vector.rotate (rotation about the origin by a given angle). -/
def Vec.rotate (t : Trig) (v : Vec) (angle : ℚ) : Vec :=
  let s := t.sin angle
  let c := t.cos angle
  ⟨v.x * c - v.y * s, v.x * s + v.y * c⟩

/-- Axis-aligned bounding box (source: Bounds.js). -/
structure Bounds where
  min : Vec
  max : Vec
deriving DecidableEq

instance : Inhabited Bounds := ⟨⟨⟨0, 0⟩, ⟨0, 0⟩⟩⟩

/-- Bounds.fromVertices: smallest box containing the given vertices.
The source starts the scan from infinite sentinel values; on a non-empty
list that is the same as folding from the first vertex, and the engine
never builds bounds from an empty list (the empty case here returns the
zero box, where the source would return an inverted infinite box). -/
def Bounds.fromVertices : List Vec → Bounds
  | [] => ⟨⟨0, 0⟩, ⟨0, 0⟩⟩
  | v :: vs =>
    vs.foldl (fun b w =>
      ⟨⟨Min.min b.min.x w.x, Min.min b.min.y w.y⟩,
       ⟨Max.max b.max.x w.x, Max.max b.max.y w.y⟩⟩) ⟨v, v⟩

/-- Bounds.translate. -/
def Bounds.translate (bounds : Bounds) (delta : Vec) : Bounds :=
  ⟨bounds.min.add delta, bounds.max.add delta⟩

/-- Bounds.overlap exactly as implemented.  The second disjunct of the
source reads a.min.X > b.max.X with an uppercase X: in JavaScript both
property accesses yield undefined and the comparison is always false, so
the test on the x axis is only one-sided.  That always-false disjunct is
modelled literally as false below. -/
def Bounds.overlap (a b : Bounds) : Bool :=
  !(decide (a.max.x < b.min.x) || false ||
    decide (a.max.y < b.min.y) || decide (a.min.y > b.max.y))

/-- Modelled from the spec: the symmetric AABB overlap formula that
section 4.1 of the specification states for Bounds.overlap,
not(a.max.x < b.min.x or a.min.x > b.max.x or a.max.y < b.min.y or
a.min.y > b.max.y). -/
def Bounds.overlapFormulaSpec (a b : Bounds) : Bool :=
  !(decide (a.max.x < b.min.x) || decide (a.min.x > b.max.x) ||
    decide (a.max.y < b.min.y) || decide (a.min.y > b.max.y))

/-- Vertices.area: shoelace area of a polygon, signed or absolute
(source: Vertices.js).  The index j is n-1 on the first pass and then
trails i by one. -/
def Vertices.area (vertices : List Vec) (signed : Bool) : ℚ :=
  if vertices.length = 0 then 0
  else
    let n := vertices.length
    let s := (List.range n).foldl (fun acc i =>
      let j := (i + n - 1) % n
      let vi := vertices.getD i default
      let vj := vertices.getD j default
      acc + (vj.x - vi.x) * (vj.y + vi.y)) 0
    (if signed then s else |s|) / 2

/-- Vertices.contains: PNPOLY ray-cast parity test.  The division in the
second conjunct is only reached when the two y coordinates differ, so the
total division of ℚ agrees with the source there. -/
def Vertices.contains (vertices : List Vec) (point : Vec) : Bool :=
  let n := vertices.length
  (List.range n).foldl (fun c i =>
    let j := (i + n - 1) % n
    let vi := vertices.getD i default
    let vj := vertices.getD j default
    if (decide (vi.y > point.y) != decide (vj.y > point.y)) &&
       decide (point.x < (vj.x - vi.x) * (point.y - vi.y) / (vj.y - vi.y) + vi.x)
    then !c else c) false

/-- Vertices.rotate: rotate every vertex about a pivot.  The source
mutates the list in place; here the rotated list is returned. -/
def Vertices.rotate (t : Trig) (vertices : List Vec) (angle : ℚ) (point : Vec) : List Vec :=
  if angle = 0 then vertices
  else
    let s := t.sin angle
    let c := t.cos angle
    vertices.map (fun v =>
      let d := v.sub point
      ⟨point.x + (d.x * c - d.y * s), point.y + (d.x * s + d.y * c)⟩)

/-- The index pairs walked by the loops of Vertices.centroid and
Vertices.inertia.  The source writes for (i = 0, j = 0; i < n; i++,
j = (i + 1) % n), so the first pass pairs vertex 0 with itself and every
later pass with counter i pairs vertices i and (i+1) mod n; the pair
(0, 1) is never visited. -/
def Vertices.loopPairs (n : ℕ) : List (ℕ × ℕ) :=
  (List.range n).map (fun i => if i = 0 then (0, 0) else (i, (i + 1) % n))

/-- Vertices.inertia exactly as implemented: vertices are translated by
the negated centroid, then the loop accumulates
cross * (vj.vj) + vj.vi + vi.vi into the numerator (in the source the
absolute cross product multiplies only the first dot product) and the
absolute cross product into the denominator, over the index pairs of
loopPairs.  A zero denominator would be a division by zero in the
source; on ℚ it yields 0. -/
def Vertices.inertia (vertices : List Vec) (mass : ℚ) (c : Vec) : ℚ :=
  let vs := vertices.map (fun v => v.add ⟨-c.x, -c.y⟩)
  let numerator := (Vertices.loopPairs vs.length).foldl (fun acc p =>
    let vi := vs.getD p.1 default
    let vj := vs.getD p.2 default
    acc + |vj.cross vi| * vj.dot vj + vj.dot vi + vi.dot vi) 0
  let denominator := (Vertices.loopPairs vs.length).foldl (fun acc p =>
    let vi := vs.getD p.1 default
    let vj := vs.getD p.2 default
    acc + |vj.cross vi|) 0
  mass / 6 * (numerator / denominator)

/-- Modelled from the spec: the moment-of-inertia formula the claim
states, (m/6) * (sum over consecutive vertex pairs of
cross * (vj.vj + vj.vi + vi.vi)) / (sum of cross), with cross the
absolute cross product of the pair and the vertices translated so that
the given centroid is the origin. -/
def Vertices.inertiaFormulaSpec (vertices : List Vec) (mass : ℚ) (c : Vec) : ℚ :=
  let vs := vertices.map (fun v => v.add ⟨-c.x, -c.y⟩)
  let n := vs.length
  let pairs := (List.range n).map (fun i => (i, (i + 1) % n))
  let numerator := pairs.foldl (fun acc p =>
    let vi := vs.getD p.1 default
    let vj := vs.getD p.2 default
    acc + |vj.cross vi| * (vj.dot vj + vj.dot vi + vi.dot vi)) 0
  let denominator := pairs.foldl (fun acc p =>
    let vi := vs.getD p.1 default
    let vj := vs.getD p.2 default
    acc + |vj.cross vi|) 0
  mass / 6 * (numerator / denominator)

/-- Rigid body state (source: Body.js, latest revision).  Every property
the engine reads or writes is a field; the ad-hoc symbol-keyed per-body
state (motion, sleepCounter, positionImpulse, totalContacts) is modelled
as zero-valued fields, matching the source's create-if-absent accesses.
The mass of a static body is the IEEE infinity in the source; here it is
whatever rational the field holds, which is sound because no verified
property reads the mass of a static body (static bodies skip
integration, and the force accumulated from gravity is cleared before it
is ever read). -/
structure Body where
  vertices : List Vec
  position : Vec
  previousPosition : Vec
  velocity : Vec
  force : Vec
  angle : ℚ
  previousAngle : ℚ
  angularVelocity : ℚ
  torque : ℚ
  mass : ℚ
  invMass : ℚ
  inertia : ℚ
  invInertia : ℚ
  density : ℚ
  area : ℚ
  bounds : Bounds
  axes : List Vec
  centroid : Vec
  isStatic : Bool
  isSleeping : Bool
  slop : ℚ
  restitution : ℚ
  friction : ℚ
  frictionAir : ℚ
  motion : ℚ
  sleepCounter : ℕ
  positionImpulse : Vec
  totalContacts : ℕ
deriving DecidableEq

/-- The all-zero body, used as the default element of body lists. -/
def Body.zero : Body :=
  ⟨[], ⟨0, 0⟩, ⟨0, 0⟩, ⟨0, 0⟩, ⟨0, 0⟩, 0, 0, 0, 0, 0, 0, 0, 0, 0, 0,
    ⟨⟨0, 0⟩, ⟨0, 0⟩⟩, [], ⟨0, 0⟩, false, false, 0, 0, 0, 0, 0, 0, ⟨0, 0⟩, 0⟩

instance : Inhabited Body := ⟨Body.zero⟩

/-- Body.shouldUpdate: a body integrates and joins pairs iff it is
neither static nor sleeping. -/
def Body.shouldUpdate (b : Body) : Bool := !(b.isStatic || b.isSleeping)

/-- Body.update: one step of time-corrected Verlet integration, exactly
as in the source.  Static or sleeping bodies return unchanged; otherwise
velocity and angular velocity are recomputed, the angle advances, the
vertices are translated (and, when the angular velocity is non-zero,
rotated about the old position together with the axes, with the bounds
rebuilt), and finally the position advances while the previous position
is set to the old position. -/
def Body.update (t : Trig) (b : Body) (delta lastDelta : ℚ) : Body :=
  if !b.shouldUpdate then b
  else
    let prevVelocity := b.position.sub b.previousPosition
    let correction1 := delta / lastDelta
    let correction2 := (1 / 2 : ℚ) * delta * (delta + lastDelta)
    let airFactor := 1 - b.frictionAir
    let vel : Vec :=
      ⟨prevVelocity.x * airFactor * correction1 + b.force.x / b.mass * correction2,
       prevVelocity.y * airFactor * correction1 + b.force.y / b.mass * correction2⟩
    let angVel := (b.angle - b.previousAngle) * airFactor * correction1 +
      b.torque / b.inertia * correction2
    let verts := b.vertices.map (fun v => v.add vel)
    if angVel = 0 then
      { b with
        velocity := vel
        angularVelocity := angVel
        previousAngle := b.angle
        angle := b.angle + angVel
        vertices := verts
        bounds := Bounds.translate b.bounds vel
        previousPosition := b.position
        position := b.position.add vel }
    else
      let verts2 := Vertices.rotate t verts angVel b.position
      { b with
        velocity := vel
        angularVelocity := angVel
        previousAngle := b.angle
        angle := b.angle + angVel
        vertices := verts2
        axes := b.axes.map (fun a => Vec.rotate t a angVel)
        bounds := Bounds.fromVertices verts2
        previousPosition := b.position
        position := b.position.add vel }

/-- The position setter of Body: translates the vertices by the change
and shifts previousPosition by the same change so that the derived
velocity is untouched. -/
def Body.setPosition (b : Body) (p : Vec) : Body :=
  let delta := p.sub b.position
  { b with
    vertices := b.vertices.map (fun v => v.add delta)
    previousPosition := b.previousPosition.add delta
    position := p }

/-- Sleep events a body can emit. -/
inductive SleepEv where
  | sleepEnter
  | sleepExit
deriving DecidableEq

/-- setSleeping from core/Engine.js: returns the updated body together
with the list of emitted events.  No change and no event when the flag
already has the requested value; on falling asleep the velocities are
zeroed, the previous position and angle are aligned to the current ones
and the motion is cleared; on waking up the sleep counter restarts. -/
def setSleeping (body : Body) (asleep : Bool) : Body × List SleepEv :=
  if body.isSleeping = asleep then (body, [])
  else if asleep then
    ({ body with
        isSleeping := asleep
        previousPosition := body.position
        previousAngle := body.angle
        velocity := ⟨0, 0⟩
        angularVelocity := 0
        motion := 0 }, [SleepEv.sleepEnter])
  else
    ({ body with isSleeping := asleep, sleepCounter := 0 }, [SleepEv.sleepExit])

/-- Resting threshold constant of Collision.js. -/
def restingThresh : ℚ := 6

/-- clamp from core/util.js. -/
def clamp (v lo hi : ℚ) : ℚ := if v < lo then lo else if v > hi then hi else v

/-- Math.sign. -/
def signQ (v : ℚ) : ℚ := if v > 0 then 1 else if v < 0 then -1 else 0

/-- A contact point of a collision.  The source creates it as a bare
vertex record and later coalesces the absent impulse caches with zero,
so starting both caches at zero is equivalent. -/
structure Contact where
  vertex : Vec
  normalImpulse : ℚ
  tangentImpulse : ℚ
deriving DecidableEq

/-- Result of a SAT test between two bodies.  For a failed test the
source returns an object carrying only the two bodies and a false
colliding flag; the remaining fields here then hold default values.
The separation field is written by the first pass of solvePosition; the
source leaves it undefined until then, and it starts at zero here. -/
structure CollRes where
  colliding : Bool
  normal : Vec
  tangent : Vec
  depth : ℚ
  penetrationVector : Vec
  contacts : List Contact
  slop : ℚ
  restitution : ℚ
  friction : ℚ
  separation : ℚ
deriving DecidableEq

instance : Inhabited CollRes := ⟨⟨false, default, default, 0, default, [], 0, 0, 0, 0⟩⟩

/-- projectToAxis: the interval of projections of a vertex list on an
axis, as (min, max).  The source scans from infinite sentinels; on a
non-empty list that is a fold from the first projection.  For an empty
list the source would return an inverted infinite interval; here the
zero interval is returned (the engine only projects polygon vertex
lists, which are non-empty). -/
def projectToAxis : List Vec → Vec → ℚ × ℚ
  | [], _ => (0, 0)
  | v :: vs, axis =>
    vs.foldl (fun i w =>
      (Min.min i.1 (w.dot axis), Max.max i.2 (w.dot axis))) (v.dot axis, v.dot axis)

/-- Loop of overlapAxes: returns Lean none for the JavaScript null (a
separating axis was found), and otherwise the best (smallest) overlap
with its axis; the inner Option is none when no axis has been scanned
yet, standing for the infinite starting overlap of the source. -/
def overlapAxesGo (vertices1 vertices2 : List Vec) :
    List Vec → Option (ℚ × Vec) → Option (Option (ℚ × Vec))
  | [], best => some best
  | a :: rest, best =>
    let interval1 := projectToAxis vertices1 a
    let interval2 := projectToAxis vertices2 a
    let ov := Min.min (interval1.2 - interval2.1) (interval2.2 - interval1.1)
    if ov ≤ 0 then none
    else
      match best with
      | none => overlapAxesGo vertices1 vertices2 rest (some (ov, a))
      | some best0 =>
        if ov < best0.1 then overlapAxesGo vertices1 vertices2 rest (some (ov, a))
        else overlapAxesGo vertices1 vertices2 rest (some best0)

/-- overlapAxes from Collision.js. -/
def overlapAxes (vertices1 vertices2 axes : List Vec) : Option (Option (ℚ × Vec)) :=
  overlapAxesGo vertices1 vertices2 axes none

/-- twoNearestVertices from Collision.js: the vertex minimizing the
negated projection of its offset from the target on the normal (first
minimum wins), together with the better of its two cyclic neighbours
(strictly better predecessor wins, ties go to the successor). -/
def twoNearestVertices (target : Vec) (vertices : List Vec) (normal : Vec) : Vec × Vec :=
  let n := vertices.length
  let proj := fun (i : ℕ) => -(((vertices.getD i default).sub target).dot normal)
  let vertex1 := (List.range n).foldl (fun best i => if proj i < proj best then i else best) 0
  let vertex2 := (vertex1 + n - 1) % n
  let vertex3 := (vertex1 + 1 + n) % n
  (vertices.getD vertex1 default,
   if proj vertex2 < proj vertex3 then vertices.getD vertex2 default
   else vertices.getD vertex3 default)

/-- The contact-point gathering step of Collision.test: of the two
vertices of the second body nearest to the first body along the normal,
keep those inside the first body; when fewer than two are kept, repeat
with the bodies swapped and the normal reversed, with the first of the
two swapped candidates pushed without re-checking the count, exactly as
in the source. -/
def gatherContacts (body1 body2 : Body) (normal : Vec) : List Contact :=
  let body1Contacts := twoNearestVertices body1.position body2.vertices normal
  let contacts0 : List Contact :=
    (if Vertices.contains body1.vertices body1Contacts.1
     then [⟨body1Contacts.1, 0, 0⟩] else []) ++
    (if Vertices.contains body1.vertices body1Contacts.2
     then [⟨body1Contacts.2, 0, 0⟩] else [])
  if contacts0.length < 2 then
    let body2Contacts :=
      twoNearestVertices body2.position body1.vertices (normal.scalar (-1))
    let contacts1 := contacts0 ++
      (if Vertices.contains body2.vertices body2Contacts.1
       then [⟨body2Contacts.1, 0, 0⟩] else [])
    if contacts1.length < 2 ∧ Vertices.contains body2.vertices body2Contacts.2
    then contacts1 ++ [⟨body2Contacts.2, 0, 0⟩] else contacts1
  else contacts0

/-- Collision.test: the full SAT test.  Mirrors the source: run
overlapAxes on the axes of each body; a null from either means no
collision; otherwise pick the smaller overlap as depth and axis, flip
the axis away from the first body, and gather up to two contact points
from the nearest vertices of each body that lie inside the other body.
When both axis lists are empty the source reaches an undefined collision
normal and throws; that unreachable-for-real-bodies case returns a
default record with the colliding flag set, matching the last state the
source writes. -/
def Collision.test (body1 body2 : Body) : CollRes :=
  match overlapAxes body1.vertices body2.vertices body1.axes with
  | none => default
  | some abBest =>
    match overlapAxes body2.vertices body1.vertices body2.axes with
    | none => default
    | some baBest =>
      let chosen : Option (ℚ × Vec) :=
        match abBest, baBest with
        | some ab, some ba => if ab.1 < ba.1 then some ab else some ba
        | some ab, none => some ab
        | none, some ba => some ba
        | none, none => none
      match chosen with
      | none => { (default : CollRes) with colliding := true }
      | some best =>
        let normal :=
          if best.2.dot (body2.position.sub body1.position) > 0 then best.2.scalar (-1)
          else best.2
        let tangent := normal.perp
        let penetrationVector := normal.scalar best.1
        { colliding := true
          normal := normal
          tangent := tangent
          depth := best.1
          penetrationVector := penetrationVector
          contacts := gatherContacts body1 body2 normal
          slop := Max.max body1.slop body2.slop
          restitution := Max.max body1.restitution body2.restitution
          friction := Min.min body1.friction body2.friction
          separation := 0 }

/-- A collision stored by the engine: the result of Collision.test
together with the indices of the two bodies in the engine's body list
(the source keeps object references; the list is never reordered, so
indices model the aliasing faithfully). -/
structure Coll where
  i1 : ℕ
  i2 : ℕ
  res : CollRes
deriving DecidableEq

/-- Read a body of the engine list (the source indexes live objects;
out-of-range reads cannot happen for indices produced by the engine). -/
def getB (bodies : List Body) (i : ℕ) : Body := bodies.getD i default

/-- Write a body of the engine list. -/
def setB (bodies : List Body) (i : ℕ) (b : Body) : List Body := bodies.set i b

/-- Collision.preSolvePosition: add the contact count of every collision
to the running total of both involved bodies. -/
def preSolvePosition (bodies : List Body) (collisions : List Coll) : List Body :=
  collisions.foldl (fun bs c =>
    let b1 := getB bs c.i1
    let bs1 := setB bs c.i1 { b1 with totalContacts := b1.totalContacts + c.res.contacts.length }
    let b2 := getB bs1 c.i2
    setB bs1 c.i2 { b2 with totalContacts := b2.totalContacts + c.res.contacts.length }) bodies

/-- First loop of Collision.solvePosition: store in every collision the
current separation along its normal, accounting for the position
impulses already accumulated on the bodies during this tick. -/
def solvePositionPass1 (bodies : List Body) (collisions : List Coll) : List Coll :=
  collisions.map (fun c =>
    let body1 := getB bodies c.i1
    let body2 := getB bodies c.i2
    let separation :=
      (body2.position.add body2.positionImpulse).sub
        ((body2.position.sub c.res.penetrationVector).add body1.positionImpulse)
    { c with res := { c.res with separation := c.res.normal.dot separation } })

/-- Second loop of Collision.solvePosition: distribute the remaining
separation, less the slop, into the position impulses of the updating
bodies.  The division by the total contact count would be an IEEE
infinity in the source for a body whose collisions all carry zero
contacts; on ℚ it yields zero (no verified property evaluates that
corner). -/
def solvePositionPass2 (bodies : List Body) (collisions : List Coll) : List Body :=
  collisions.foldl (fun bs c =>
    if c.res.separation < 0 then bs
    else
      let body1 := getB bs c.i1
      let body2 := getB bs c.i2
      let separation :=
        if body1.shouldUpdate = false ∨ body2.shouldUpdate = false
        then c.res.separation * 2 else c.res.separation
      let bs1 :=
        if body1.shouldUpdate then
          let contactShare := 1 / (body1.totalContacts : ℚ)
          setB bs c.i1 { body1 with positionImpulse :=
            ⟨body1.positionImpulse.x + c.res.normal.x * (separation - c.res.slop) * contactShare,
             body1.positionImpulse.y + c.res.normal.y * (separation - c.res.slop) * contactShare⟩ }
        else bs
      if body2.shouldUpdate then
        let b2 := getB bs1 c.i2
        let contactShare := 1 / (b2.totalContacts : ℚ)
        setB bs1 c.i2 { b2 with positionImpulse :=
          ⟨b2.positionImpulse.x - c.res.normal.x * (separation - c.res.slop) * contactShare,
           b2.positionImpulse.y - c.res.normal.y * (separation - c.res.slop) * contactShare⟩ }
      else bs1) bodies

/-- One call of Collision.solvePosition: the separation pass over all
collisions followed by the impulse pass over all collisions. -/
def solvePosition (state : List Body × List Coll) : List Body × List Coll :=
  let collisions2 := solvePositionPass1 state.1 state.2
  (solvePositionPass2 state.1 collisions2, collisions2)

/-- Collision.postSolvePosition: reset every body's contact total and,
when its position impulse is non-zero, translate vertices, bounds,
position and previous position by the impulse and clear it. -/
def postSolvePosition (bodies : List Body) : List Body :=
  bodies.map (fun body0 =>
    let body := { body0 with totalContacts := 0 }
    if body.positionImpulse.x ≠ 0 ∨ body.positionImpulse.y ≠ 0 then
      { body with
        vertices := body.vertices.map (fun v => v.add body.positionImpulse)
        bounds := Bounds.translate body.bounds body.positionImpulse
        position := body.position.add body.positionImpulse
        previousPosition := body.previousPosition.add body.positionImpulse
        positionImpulse := ⟨0, 0⟩ }
    else body)

/-- Inner loop of Collision.solveVelocity for a single contact point:
computes the relative velocity at the contact, the normal and tangent
impulses with the resting-collision accumulation of the source, and
applies the resulting impulse to the previous position and angle of the
updating bodies.  A zero effective-mass denominator would be an IEEE
infinity in the source; on ℚ the impulse is zero instead (no verified
property evaluates that corner). -/
def solveVelocityContact (i1 i2 : ℕ) (normal tangent : Vec)
    (restitution friction separation : ℚ) (contactCount : ℕ)
    (state : List Body × List Contact) (contact : Contact) : List Body × List Contact :=
  let bs := state.1
  let body1 := getB bs i1
  let body2 := getB bs i2
  let r1 := contact.vertex.sub body1.position
  let r2 := contact.vertex.sub body2.position
  let contactVelocity1 := (r1.perp.scalar body1.angularVelocity).add body1.velocity
  let contactVelocity2 := (r2.perp.scalar body2.angularVelocity).add body2.velocity
  let relativeVelocity := contactVelocity1.sub contactVelocity2
  let normalVelocity := relativeVelocity.dot normal
  let tangentVelocity := relativeVelocity.dot tangent
  let r1crossN := r1.cross normal
  let r2crossN := r2.cross normal
  let denominator :=
    (body1.invMass + body2.invMass +
      body1.invInertia * r1crossN * r1crossN +
      body2.invInertia * r2crossN * r2crossN) * (contactCount : ℚ)
  let normalImpulse0 := (1 + restitution) * normalVelocity / denominator
  let normalForce := clamp (separation + normalVelocity) 0 1 * 5
  let frictionPair : ℚ × Option ℚ :=
    if |tangentVelocity| > friction * normalForce then
      (clamp (friction * signQ tangentVelocity) (-|tangentVelocity|) |tangentVelocity|,
       some |tangentVelocity|)
    else (tangentVelocity, none)
  let tangentImpulse0 := frictionPair.1 / denominator
  let normalStep : Contact × ℚ :=
    if normalVelocity < 0 ∧ normalVelocity * normalVelocity > restingThresh then
      ({ contact with normalImpulse := 0 }, normalImpulse0)
    else
      let accumulated := Min.min (contact.normalImpulse + normalImpulse0) 0
      ({ contact with normalImpulse := accumulated }, accumulated - contact.normalImpulse)
  let contact2 := normalStep.1
  let tangentStep : Contact × ℚ :=
    if tangentVelocity * tangentVelocity > restingThresh then
      ({ contact2 with tangentImpulse := 0 }, tangentImpulse0)
    else
      let bounded :=
        match frictionPair.2 with
        | none => contact2.tangentImpulse + tangentImpulse0
        | some maxFriction =>
          clamp (contact2.tangentImpulse + tangentImpulse0) (-maxFriction) maxFriction
      ({ contact2 with tangentImpulse := bounded }, bounded - contact2.tangentImpulse)
  let totalImpulse :=
    (normal.scalar normalStep.2).add (tangent.scalar tangentStep.2)
  let bs1 :=
    if body1.shouldUpdate then
      setB bs i1 { body1 with
        previousPosition := body1.previousPosition.add (totalImpulse.scalar body1.invMass)
        previousAngle := body1.previousAngle + r1.cross totalImpulse * body1.invInertia }
    else bs
  let bs2 :=
    if body2.shouldUpdate then
      let b2 := getB bs1 i2
      setB bs1 i2 { b2 with
        previousPosition := b2.previousPosition.sub (totalImpulse.scalar b2.invMass)
        previousAngle := b2.previousAngle - r2.cross totalImpulse * b2.invInertia }
    else bs1
  (bs2, state.2 ++ [tangentStep.1])

/-- Body of Collision.solveVelocity for one collision: refresh the
cached velocities of both bodies from their Verlet state, then run the
contact loop, threading the body list and collecting the contacts with
their updated impulse caches. -/
def solveVelocityColl (state : List Body × List Coll) (c : Coll) : List Body × List Coll :=
  let bs := state.1
  let body1 := getB bs c.i1
  let bs1 := setB bs c.i1 { body1 with
    velocity := body1.position.sub body1.previousPosition
    angularVelocity := body1.angle - body1.previousAngle }
  let body2 := getB bs1 c.i2
  let bs2 := setB bs1 c.i2 { body2 with
    velocity := body2.position.sub body2.previousPosition
    angularVelocity := body2.angle - body2.previousAngle }
  let inner := c.res.contacts.foldl
    (solveVelocityContact c.i1 c.i2 c.res.normal c.res.tangent
      c.res.restitution c.res.friction c.res.separation c.res.contacts.length)
    (bs2, [])
  (inner.1, state.2 ++ [{ c with res := { c.res with contacts := inner.2 } }])

/-- One call of Collision.solveVelocity over all collisions. -/
def solveVelocity (state : List Body × List Coll) : List Body × List Coll :=
  state.2.foldl solveVelocityColl (state.1, [])

/-- Sleep-management constants of core/Engine.js: counter cap 60,
maximum motion to fall asleep 0.04, minimum motion of the other body to
be woken up 0.09. -/
def sleepMaxMotionForSleep : ℚ := 1 / 25

/-- Wake-up motion threshold 0.09. -/
def sleepMinMotionForWakeup : ℚ := 9 / 100

/-- Body of the loop of updateSleeping: a body with a force or torque on
it is woken at once; otherwise its motion is low-passed and the sleep
counter moves it over the threshold into sleep after sixty calm ticks. -/
def updateSleepingBody (b : Body) : Body × List SleepEv :=
  if b.force.x ≠ 0 ∨ b.force.y ≠ 0 ∨ b.torque ≠ 0 then setSleeping b false
  else
    let motionNow := b.velocity.lengthSquared + b.angularVelocity * b.angularVelocity
    let minMotion := Min.min b.motion motionNow
    let maxMotion := Max.max b.motion motionNow
    let b1 := { b with motion := 9 / 10 * minMotion + 1 / 10 * maxMotion }
    if b1.motion < sleepMaxMotionForSleep then
      let b2 := { b1 with sleepCounter := Min.min (b1.sleepCounter + 1) 60 }
      if b2.sleepCounter ≥ 60 then setSleeping b2 true else (b2, [])
    else if b1.sleepCounter > 0 then ({ b1 with sleepCounter := b1.sleepCounter - 1 }, [])
    else (b1, [])

/-- updateSleeping of core/Engine.js over the whole body list, keeping
the emitted events. -/
def updateSleeping (bodies : List Body) : List Body × List SleepEv :=
  bodies.foldl (fun acc b =>
    let r := updateSleepingBody b
    (acc.1 ++ [r.1], acc.2 ++ r.2)) ([], [])

/-- updateSleepingCollisions of core/Engine.js: wake a sleeping body
when the awake body it collides with moves enough; pairs of two sleepers
or with any static body are skipped. -/
def updateSleepingCollisions (bodies : List Body) (collisions : List Coll) :
    List Body × List SleepEv :=
  collisions.foldl (fun acc c =>
    let bs := acc.1
    let body1 := getB bs c.i1
    let body2 := getB bs c.i2
    if (body1.isSleeping ∧ body2.isSleeping) ∨ body1.isStatic = true ∨ body2.isStatic = true
    then acc
    else
      let awakeIdx := if body1.isSleeping then c.i2 else c.i1
      let asleepIdx := if body1.isSleeping then c.i1 else c.i2
      let awakeBody := getB bs awakeIdx
      let awakeBodyMotion :=
        awakeBody.velocity.lengthSquared + awakeBody.angularVelocity * awakeBody.angularVelocity
      if awakeBodyMotion > sleepMinMotionForWakeup then
        let r := setSleeping (getB bs asleepIdx) false
        (setB bs asleepIdx r.1, acc.2 ++ r.2)
      else acc) (bodies, [])

/-- Broad phase of Engine.update: ordered double loop over the body
list, keeping the index pairs with overlapping bounds (the one-sided
overlap test of the source), dropping pairs of two non-updating bodies,
and dropping a pair when it or its reverse is already present. -/
def broadPhase (bodies : List Body) : List (ℕ × ℕ) :=
  (List.range bodies.length).foldl (fun acc i =>
    (List.range bodies.length).foldl (fun acc2 j =>
      let b1 := getB bodies i
      let b2 := getB bodies j
      if i ≠ j ∧ Bounds.overlap b1.bounds b2.bounds = true then
        if b1.shouldUpdate = false ∧ b2.shouldUpdate = false then acc2
        else if acc2.any (fun c => (c.1 = j ∧ c.2 = i) ∨ (c.1 = i ∧ c.2 = j)) then acc2
        else acc2 ++ [(i, j)]
      else acc2) acc) []

/-- Narrow phase of Engine.update: run the SAT test on every candidate
pair and keep the colliding results. -/
def narrowPhase (bodies : List Body) (pairs : List (ℕ × ℕ)) : List Coll :=
  pairs.foldl (fun acc p =>
    let r := Collision.test (getB bodies p.1) (getB bodies p.2)
    if r.colliding then acc ++ [⟨p.1, p.2, r⟩] else acc) []

/-- Gravity application loop of Engine.update. -/
def gravityApply (gravity : Vec) (bodies : List Body) : List Body :=
  bodies.map (fun b => { b with force := b.force.add (gravity.scalar b.mass) })

/-- Integration loop of Engine.update: every updating body advances one
Verlet step (Body.update re-checks the same guard internally). -/
def integrateBodies (t : Trig) (delta lastDelta : ℚ) (bodies : List Body) : List Body :=
  bodies.map (fun b => if b.shouldUpdate then b.update t delta lastDelta else b)

/-- Force and torque reset loop at the end of Engine.update. -/
def resetForces (bodies : List Body) : List Body :=
  bodies.map (fun b => { b with force := ⟨0, 0⟩, torque := 0 })

/-- Engine options with their constructor defaults. -/
structure EngineOptions where
  positionIterations : ℕ
  velocityIterations : ℕ
  gravity : Vec
  enableSleeping : Bool
deriving DecidableEq

/-- The engine: a body list plus options. -/
structure Engine where
  bodies : List Body
  options : EngineOptions
deriving DecidableEq

/-- Engine.update: one full tick in the order of the source: sleep
update, gravity accumulation, integration of updating bodies, broad and
narrow phase, collision-driven wake-ups, the iterated position solver
with its application step, the iterated velocity solver, and the force
and torque reset.  Event emission has no listeners here (the claims all
assume no listener mutates the bodies), so the events are only
collected: the returned triple is the new engine, the collision list
handed to the update event, and the sleep events. -/
def Engine.update (t : Trig) (e : Engine) (delta lastDelta : ℚ) :
    Engine × List Coll × List SleepEv :=
  let opts := e.options
  let sleepRes := if opts.enableSleeping then updateSleeping e.bodies else (e.bodies, [])
  let bodies1 := sleepRes.1
  let bodies2 := gravityApply opts.gravity bodies1
  let bodies3 := integrateBodies t delta lastDelta bodies2
  let pairs := broadPhase bodies3
  let collisions := narrowPhase bodies3 pairs
  let wakeRes :=
    if opts.enableSleeping then updateSleepingCollisions bodies3 collisions
    else (bodies3, [])
  let bodies4 := wakeRes.1
  let bodies5 := preSolvePosition bodies4 collisions
  let posSolved := solvePosition^[opts.positionIterations] (bodies5, collisions)
  let bodies6 := postSolvePosition posSolved.1
  let velSolved := solveVelocity^[opts.velocityIterations] (bodies6, posSolved.2)
  let bodies7 := resetForces velSolved.1
  (⟨bodies7, opts⟩, velSolved.2, sleepRes.2 ++ wakeRes.2)

/-- A sequence of calls to Engine.update with the given per-call time
deltas. -/
def Engine.run (t : Trig) : Engine → List (ℚ × ℚ) → Engine
  | e, [] => e
  | e, dt :: rest => Engine.run t (Engine.update t e dt.1 dt.2).1 rest

/-- Edge k of a vertex list, as the vector from vertex k to the
cyclically next vertex, exactly as the vertices setter of Body computes
it before taking the perpendicular. -/
def edgeOf (vs : List Vec) (k : ℕ) : Vec :=
  (vs.getD ((k + 1) % vs.length) default).sub (vs.getD k default)

/-- The vertex list is a strictly convex polygon with the orientation
given by the sign: for every directed edge, every vertex other than the
edge's endpoints lies strictly on the side of the edge given by the
sign (+1 for counter-clockwise lists, -1 for clockwise ones). -/
def StrictlyConvexPoly (sgn : ℚ) (vs : List Vec) : Prop :=
  ∀ k < vs.length, ∀ l < vs.length, l ≠ k → l ≠ (k + 1) % vs.length →
    0 < sgn * (edgeOf vs k).cross ((vs.getD l default).sub (vs.getD k default))

/-- The stored axes of a body cover its edges: every edge's
perpendicular appears in the axes list up to a non-zero scale.  This is
what the vertices setter guarantees: it stores the normalized
perpendicular of every edge (a positive multiple) and then keeps one
representative per direction value, where two normalized axes share a
direction value exactly when they are parallel (the arctangent of the
slope, with the vertical case pinned, is blind to the sign of the
vector). -/
def AxesMatchEdges (vs axes : List Vec) : Prop :=
  ∀ k < vs.length, ∃ a ∈ axes, ∃ c : ℚ, c ≠ 0 ∧ a = (edgeOf vs k).perp.scalar c

/-- The two boxes are separated on the x or the y axis. -/
def BoundsDisjoint (a b : Bounds) : Prop :=
  a.max.x < b.min.x ∨ b.max.x < a.min.x ∨ a.max.y < b.min.y ∨ b.max.y < a.min.y

/-- Convenience builder for concrete bodies in witnesses: all fields
default except geometry. -/
def mkTestBody (vertices : List Vec) (position : Vec) (axes : List Vec) : Body :=
  { Body.zero with
    vertices := vertices
    position := position
    axes := axes
    bounds := Bounds.fromVertices vertices }

/-- A concrete choice for the abstract trigonometric functions, used
only to evaluate witnesses. -/
def trivTrig : Trig := ⟨fun _ => 0, fun _ => 1⟩

/-- Concrete body for evaluating the integration claim. -/
def witnessBodyC1 : Body :=
  { Body.zero with
    position := ⟨3, 4⟩
    previousPosition := ⟨1, 1⟩
    force := ⟨2, 0⟩
    mass := 2
    inertia := 1
    frictionAir := 1 / 2 }

/-- The sleep invariant: a sleeping body has zero cached velocities and
its previous position and angle aligned with the current ones. -/
def SleepInv (b : Body) : Prop :=
  b.isSleeping = true →
    b.velocity = ⟨0, 0⟩ ∧ b.angularVelocity = 0 ∧
    b.previousPosition = b.position ∧ b.previousAngle = b.angle

/-- Concrete static body for witnesses. -/
def witnessStaticBody : Body :=
  { Body.zero with
    isStatic := true
    vertices := [⟨0, 0⟩, ⟨1, 0⟩, ⟨0, 1⟩]
    position := ⟨0, 0⟩
    bounds := ⟨⟨0, 0⟩, ⟨1, 1⟩⟩ }

/-- Concrete sleeping body for witnesses (it satisfies SleepInv). -/
def witnessSleepingBody : Body := { Body.zero with isSleeping := true }

/-- Default engine options of the source constructor. -/
def defaultOptions : EngineOptions := ⟨6, 4, ⟨0, 1 / 1000⟩, true⟩

/-- Concrete one-body engines for witnesses. -/
def witnessEngineStatic : Engine := ⟨[witnessStaticBody], defaultOptions⟩

/-- Engine holding one sleeping body, for witnesses. -/
def witnessEngineSleep : Engine := ⟨[witnessSleepingBody], defaultOptions⟩

/-- A tall thin rectangle and a wide flat rectangle crossing it: they
collide, but no vertex of either lies inside the other, so the SAT test
keeps no contact point. -/
def tallBody : Body :=
  mkTestBody [⟨-1, -5⟩, ⟨1, -5⟩, ⟨1, 5⟩, ⟨-1, 5⟩] ⟨0, 0⟩ [⟨0, 1⟩, ⟨-1, 0⟩]

/-- The wide flat rectangle of the crossing pair. -/
def wideBody : Body :=
  mkTestBody [⟨-5, -1⟩, ⟨5, -1⟩, ⟨5, 1⟩, ⟨-5, 1⟩] ⟨0, 0⟩ [⟨0, 1⟩, ⟨-1, 0⟩]

/-- Two far-apart unit squares for the AABB-rejection witness. -/
def squareBodyA : Body :=
  mkTestBody [⟨0, 0⟩, ⟨1, 0⟩, ⟨1, 1⟩, ⟨0, 1⟩] ⟨1/2, 1/2⟩ [⟨0, 1⟩, ⟨-1, 0⟩]

/-- The distant second square. -/
def squareBodyB : Body :=
  mkTestBody [⟨10, 0⟩, ⟨11, 0⟩, ⟨11, 1⟩, ⟨10, 1⟩] ⟨21/2, 1/2⟩ [⟨0, 1⟩, ⟨-1, 0⟩]

/-- The four externally visible geometric attributes the
static-rigidity claim tracks, compared against a snapshot body. -/
def FrozenGeom (snap b : Body) : Prop :=
  b.position = snap.position ∧ b.angle = snap.angle ∧
  b.vertices = snap.vertices ∧ b.bounds = snap.bounds

/-- State predicate for the static-rigidity proof: the body list keeps
length n and the body in slot j is static, keeps its geometry frozen at
the snapshot, and carries a zero position impulse. -/
def StaticFrozen (j n : ℕ) (snap : Body) (bs : List Body) : Prop :=
  bs.length = n ∧ (getB bs j).isStatic = true ∧
  FrozenGeom snap (getB bs j) ∧ (getB bs j).positionImpulse = ⟨0, 0⟩

/-- Separation of two vertex lists along an axis: all projections of
one list are at most all projections of the other. -/
def SepOnAxis (ps qs : List Vec) (a : Vec) : Prop :=
  (∀ p ∈ ps, ∀ q ∈ qs, a.dot q ≤ a.dot p) ∨ (∀ p ∈ ps, ∀ q ∈ qs, a.dot p ≤ a.dot q)

/-- The overlap the SAT loop computes for one axis. -/
def overlapOn (v1 v2 : List Vec) (a : Vec) : ℚ :=
  Min.min ((projectToAxis v1 a).2 - (projectToAxis v2 a).1)
          ((projectToAxis v2 a).2 - (projectToAxis v1 a).1)

/-- All pairwise differences p - q between the two vertex lists. -/
def diffList (ps qs : List Vec) : List Vec :=
  ps.flatMap (fun p => qs.map (fun q => p.sub q))

/-! ## Theorems -/

/-- C1: for every non-static, non-sleeping body, a single call of
Body.update with delta = lastDelta = 1 changes the position by exactly
(position - previousPosition) * (1 - frictionAir) +
(force / mass) * (0.5 * delta * (delta + delta)), component-wise. -/
theorem C1_single_step_displacement (t : Trig) (b : Body)
    (hstatic : b.isStatic = false) (hsleep : b.isSleeping = false) :
    (Body.update t b 1 1).position.x - b.position.x =
      (b.position.x - b.previousPosition.x) * (1 - b.frictionAir) +
        b.force.x / b.mass * (1 / 2 * 1 * (1 + 1)) ∧
    (Body.update t b 1 1).position.y - b.position.y =
      (b.position.y - b.previousPosition.y) * (1 - b.frictionAir) +
        b.force.y / b.mass * (1 / 2 * 1 * (1 + 1)) := by
  have hs2 : (!b.shouldUpdate) = false := by
    simp [Body.shouldUpdate, hstatic, hsleep]
  unfold Body.update
  rw [hs2]
  simp only [Bool.false_eq_true, if_false]
  constructor <;> (split <;> (simp only [Vec.add, Vec.sub]; ring))

/-- Witness for C1 at a concrete body. -/
theorem C1_single_step_displacement_witness :
    witnessBodyC1.isStatic = false ∧ witnessBodyC1.isSleeping = false ∧
    ((Body.update trivTrig witnessBodyC1 1 1).position.x - witnessBodyC1.position.x =
      (witnessBodyC1.position.x - witnessBodyC1.previousPosition.x) * (1 - witnessBodyC1.frictionAir) +
        witnessBodyC1.force.x / witnessBodyC1.mass * (1 / 2 * 1 * (1 + 1)) ∧
    (Body.update trivTrig witnessBodyC1 1 1).position.y - witnessBodyC1.position.y =
      (witnessBodyC1.position.y - witnessBodyC1.previousPosition.y) * (1 - witnessBodyC1.frictionAir) +
        witnessBodyC1.force.y / witnessBodyC1.mass * (1 / 2 * 1 * (1 + 1))) :=
  ⟨rfl, rfl, C1_single_step_displacement trivTrig witnessBodyC1 rfl rfl⟩

/-- C2: counterexample to the claim that Bounds.overlap implements the
symmetric AABB test.  For bounds separated on the x axis with
a.min.x > b.max.x, the implemented overlap still returns true, because
the only disjunct that could reject this case reads the undefined
uppercase-X properties and is always false; the spec formula returns
false here. -/
theorem C2_overlap_uppercase_typo :
    Bounds.overlap ⟨⟨10, 0⟩, ⟨11, 1⟩⟩ ⟨⟨0, 0⟩, ⟨5, 1⟩⟩ = true ∧
    (Bounds.mk ⟨10, 0⟩ ⟨11, 1⟩).min.x > (Bounds.mk ⟨0, 0⟩ ⟨5, 1⟩).max.x ∧
    Bounds.overlapFormulaSpec ⟨⟨10, 0⟩, ⟨11, 1⟩⟩ ⟨⟨0, 0⟩, ⟨5, 1⟩⟩ = false := by
  refine ⟨by decide, by decide, by decide⟩

/-- C3: failing input for the inertia claim.  For the triangle (3,0),
(0,3), (-3,-3) with mass 6 and centroid (0,0) the implemented
Vertices.inertia returns 15, while the claimed formula gives 18: the
source multiplies the absolute cross product only into the first of the
three dot products, and its loop pairs vertex 0 with itself instead of
with vertex 1. -/
theorem C3_inertia_mismatch :
    Vertices.inertia [⟨3, 0⟩, ⟨0, 3⟩, ⟨-3, -3⟩] 6 ⟨0, 0⟩ = 15 ∧
    Vertices.inertiaFormulaSpec [⟨3, 0⟩, ⟨0, 3⟩, ⟨-3, -3⟩] 6 ⟨0, 0⟩ = 18 := by
  constructor <;>
    norm_num [Vertices.inertia, Vertices.inertiaFormulaSpec, Vertices.loopPairs,
      Vec.add, Vec.dot, Vec.cross, List.range_succ, List.foldl_cons, List.foldl_nil, Vec.sub]

/-- C6: assigning position p to a body translates its vertices and its
previous position by the change p - position, so the derived velocity
position - previousPosition is unchanged, the position becomes p, and
every other attribute keeps its value. -/
theorem C6_position_setter (b : Body) (p : Vec) :
    (b.setPosition p).position.sub (b.setPosition p).previousPosition =
      b.position.sub b.previousPosition ∧
    (b.setPosition p).vertices = b.vertices.map (fun v => v.add (p.sub b.position)) ∧
    (b.setPosition p).previousPosition = b.previousPosition.add (p.sub b.position) ∧
    (b.setPosition p).position = p ∧
    (b.setPosition p).velocity = b.velocity ∧
    (b.setPosition p).force = b.force ∧
    (b.setPosition p).angle = b.angle ∧
    (b.setPosition p).previousAngle = b.previousAngle ∧
    (b.setPosition p).angularVelocity = b.angularVelocity ∧
    (b.setPosition p).torque = b.torque ∧
    (b.setPosition p).mass = b.mass ∧
    (b.setPosition p).invMass = b.invMass ∧
    (b.setPosition p).inertia = b.inertia ∧
    (b.setPosition p).invInertia = b.invInertia ∧
    (b.setPosition p).density = b.density ∧
    (b.setPosition p).area = b.area ∧
    (b.setPosition p).bounds = b.bounds ∧
    (b.setPosition p).axes = b.axes ∧
    (b.setPosition p).centroid = b.centroid ∧
    (b.setPosition p).isStatic = b.isStatic ∧
    (b.setPosition p).isSleeping = b.isSleeping ∧
    (b.setPosition p).slop = b.slop ∧
    (b.setPosition p).restitution = b.restitution ∧
    (b.setPosition p).friction = b.friction ∧
    (b.setPosition p).frictionAir = b.frictionAir ∧
    (b.setPosition p).motion = b.motion ∧
    (b.setPosition p).sleepCounter = b.sleepCounter ∧
    (b.setPosition p).positionImpulse = b.positionImpulse ∧
    (b.setPosition p).totalContacts = b.totalContacts := by
  refine ⟨?_, rfl, rfl, rfl, rfl, rfl, rfl, rfl, rfl, rfl, rfl, rfl, rfl, rfl, rfl,
    rfl, rfl, rfl, rfl, rfl, rfl, rfl, rfl, rfl, rfl, rfl, rfl, rfl, rfl⟩
  simp only [Body.setPosition, Vec.sub, Vec.add, Vec.mk.injEq]
  constructor <;> ring

/-- C10: setSleeping is the identity and emits nothing when the
requested flag equals the current one; sleepEnter appears exactly on the
awake-to-sleeping transition and sleepExit exactly on the
sleeping-to-awake transition. -/
theorem C10_sleep_event_transitions (b : Body) (v : Bool) :
    setSleeping b b.isSleeping = (b, []) ∧
    ((setSleeping b v).2 = [SleepEv.sleepEnter] ↔ b.isSleeping = false ∧ v = true) ∧
    ((setSleeping b v).2 = [SleepEv.sleepExit] ↔ b.isSleeping = true ∧ v = false) := by
  refine ⟨by simp [setSleeping], ?_, ?_⟩ <;>
    cases hb : b.isSleeping <;> cases v <;> simp [setSleeping, hb]

/-- The contact gathering of the SAT test never keeps more than two
contact points, whatever the containment tests return. -/
theorem gatherContacts_length_le (body1 body2 : Body) (normal : Vec) :
    (gatherContacts body1 body2 normal).length ≤ 2 := by
  unfold gatherContacts
  by_cases h1 : Vertices.contains body1.vertices
      (twoNearestVertices body1.position body2.vertices normal).1 = true <;>
  by_cases h2 : Vertices.contains body1.vertices
      (twoNearestVertices body1.position body2.vertices normal).2 = true <;>
  by_cases h3 : Vertices.contains body2.vertices
      (twoNearestVertices body2.position body1.vertices (normal.scalar (-1))).1 = true <;>
  by_cases h4 : Vertices.contains body2.vertices
      (twoNearestVertices body2.position body1.vertices (normal.scalar (-1))).2 = true <;>
  simp [h1, h2, h3, h4]

/-- C9: for every pair of bodies the contacts list of the SAT test
result has length at most two, and a colliding pair can yield an empty
contacts list: the tall thin rectangle and the wide flat rectangle
cross each other (colliding is true) while every candidate contact
vertex lies outside the other body, so no contact point is kept. -/
theorem C9_contact_list_bounds (b1 b2 : Body) :
    (Collision.test b1 b2).contacts.length ≤ 2 ∧
    ((Collision.test tallBody wideBody).colliding = true ∧
     (Collision.test tallBody wideBody).contacts = []) := by
  refine ⟨?_, ?_, ?_⟩
  · unfold Collision.test
    split
    · decide
    · split
      · decide
      · dsimp only
        split
        · decide
        · exact gatherContacts_length_le _ _ _
  · norm_num [Collision.test, gatherContacts, overlapAxes, overlapAxesGo, projectToAxis,
      twoNearestVertices, Vertices.contains, tallBody, wideBody, mkTestBody, Vec.dot, Vec.sub,
      Vec.add, Vec.scalar, Vec.perp, Vec.cross, List.range_succ, List.foldl_cons, List.foldl_nil]
  · norm_num [Collision.test, gatherContacts, overlapAxes, overlapAxesGo, projectToAxis,
      twoNearestVertices, Vertices.contains, tallBody, wideBody, mkTestBody, Vec.dot, Vec.sub,
      Vec.add, Vec.scalar, Vec.perp, Vec.cross, List.range_succ, List.foldl_cons, List.foldl_nil]

/-- With no collisions one position-solver call leaves the state alone. -/
theorem solvePosition_nil (bs : List Body) : solvePosition (bs, []) = (bs, []) := rfl

/-- With no collisions one velocity-solver call leaves the state alone. -/
theorem solveVelocity_nil (bs : List Body) : solveVelocity (bs, []) = (bs, []) := rfl

/-- With no collisions the iterated position solver leaves the state alone. -/
theorem solvePosition_iter_nil (n : ℕ) (bs : List Body) :
    solvePosition^[n] (bs, []) = (bs, []) :=
  Function.iterate_fixed (solvePosition_nil bs) n

/-- With no collisions the iterated velocity solver leaves the state alone. -/
theorem solveVelocity_iter_nil (n : ℕ) (bs : List Body) :
    solveVelocity^[n] (bs, []) = (bs, []) :=
  Function.iterate_fixed (solveVelocity_nil bs) n

/-- The one-static-body witness engine after one tick: the only change
is the sleep counter moving to one. -/
theorem witnessEngineStatic_update_eval :
    (Engine.update trivTrig witnessEngineStatic 1 1).1.bodies =
      [{ witnessStaticBody with sleepCounter := 1 }] := by
  norm_num [Engine.update, updateSleeping, updateSleepingBody, setSleeping,
    updateSleepingCollisions, broadPhase, narrowPhase, preSolvePosition,
    solvePosition_iter_nil, solveVelocity_iter_nil, postSolvePosition,
    gravityApply, integrateBodies, resetForces,
    witnessEngineStatic, witnessStaticBody, defaultOptions, trivTrig, Body.zero,
    getB, setB, Vec.add, Vec.scalar, Vec.lengthSquared, Body.shouldUpdate,
    Bounds.overlap, sleepMaxMotionForSleep, List.range_succ, List.foldl_cons, List.foldl_nil]

/-- C5: after every call of Engine.update, every body of the engine has
zero force and zero torque: the final loop of the tick overwrites both
on every body, whatever was accumulated before. -/
theorem C5_force_reset (t : Trig) (e : Engine) (delta lastDelta : ℚ) (b : Body)
    (hb : b ∈ (Engine.update t e delta lastDelta).1.bodies) :
    b.force = ⟨0, 0⟩ ∧ b.torque = 0 := by
  simp only [Engine.update, resetForces, List.mem_map] at hb
  obtain ⟨a, -, rfl⟩ := hb
  exact ⟨rfl, rfl⟩

/-- Witness for C5 on a concrete one-body engine. -/
theorem C5_force_reset_witness :
    ({ witnessStaticBody with sleepCounter := 1 } : Body) ∈
      (Engine.update trivTrig witnessEngineStatic 1 1).1.bodies ∧
    ({ witnessStaticBody with sleepCounter := 1 } : Body).force = ⟨0, 0⟩ ∧
    ({ witnessStaticBody with sleepCounter := 1 } : Body).torque = 0 := by
  have hmem : ({ witnessStaticBody with sleepCounter := 1 } : Body) ∈
      (Engine.update trivTrig witnessEngineStatic 1 1).1.bodies := by
    rw [witnessEngineStatic_update_eval]
    exact List.mem_singleton.mpr rfl
  exact ⟨hmem, C5_force_reset trivTrig witnessEngineStatic 1 1 _ hmem⟩

/-- A state predicate preserved by every step of a fold is preserved by
the whole fold. -/
theorem foldl_preserve {σ α : Type} {P : σ → Prop} {step : σ → α → σ}
    (h : ∀ s a, P s → P (step s a)) :
    ∀ (l : List α) (s : σ), P s → P (l.foldl step s) := by
  intro l
  induction l with
  | nil => intro s hs; exact hs
  | cons a l ih => intro s hs; exact ih _ (h s a hs)

/-- Writing a body slot keeps the list length. -/
theorem length_setB (bs : List Body) (i : ℕ) (b : Body) :
    (setB bs i b).length = bs.length := List.length_set bs i b

/-- Reading a different slot than the one written. -/
theorem getB_setB_ne (bs : List Body) (i j : ℕ) (b : Body) (h : i ≠ j) :
    getB (setB bs i b) j = getB bs j := by
  unfold getB setB
  rw [List.getD_eq_getElem?_getD, List.getD_eq_getElem?_getD, List.getElem?_set_ne h]

/-- Reading the slot just written. -/
theorem getB_setB_self (bs : List Body) (i : ℕ) (b : Body) (h : i < bs.length) :
    getB (setB bs i b) i = b := by
  unfold getB setB
  rw [List.getD_eq_getElem?_getD, List.getElem?_set_self, Option.getD_some]
  exact h

/-- Members of a list after a slot write. -/
theorem mem_setB (bs : List Body) (i : ℕ) (x b : Body) (h : b ∈ setB bs i x) :
    b ∈ bs ∨ b = x := List.mem_or_eq_of_mem_set h

/-- The body component of updateSleeping is a map of the single-body
step over the list. -/
theorem updateSleeping_fst (bs : List Body) :
    (updateSleeping bs).1 = bs.map (fun b => (updateSleepingBody b).1) := by
  have aux : ∀ (l : List Body) (acc : List Body × List SleepEv),
      (l.foldl (fun acc b =>
        let r := updateSleepingBody b
        (acc.1 ++ [r.1], acc.2 ++ r.2)) acc).1 =
        acc.1 ++ l.map (fun b => (updateSleepingBody b).1) := by
    intro l
    induction l with
    | nil => intro acc; simp
    | cons b l ih => intro acc; rw [List.foldl_cons, ih]; simp
  simpa [updateSleeping] using aux bs ([], [])

/-- The sleep update step never touches the static flag, the geometry or
the position impulse of a body. -/
theorem updateSleepingBody_keeps (b : Body) :
    ((updateSleepingBody b).1).isStatic = b.isStatic ∧
    ((updateSleepingBody b).1).position = b.position ∧
    ((updateSleepingBody b).1).angle = b.angle ∧
    ((updateSleepingBody b).1).vertices = b.vertices ∧
    ((updateSleepingBody b).1).bounds = b.bounds ∧
    ((updateSleepingBody b).1).positionImpulse = b.positionImpulse := by
  simp only [updateSleepingBody, setSleeping]
  split_ifs <;> simp_all

/-- A predicate preserved by a function is preserved by its iterates. -/
theorem iterate_preserve {σ : Type} {f : σ → σ} {P : σ → Prop}
    (hf : ∀ s, P s → P (f s)) : ∀ (n : ℕ) (s : σ), P s → P (f^[n] s) := by
  intro n
  induction n with
  | zero => intro s h; simpa using h
  | succ n ih => intro s h; rw [Function.iterate_succ_apply']; exact hf _ (ih s h)

/-- Reading a mapped list inside its range. -/
theorem getB_map (f : Body → Body) (bs : List Body) (j : ℕ) (h : j < bs.length) :
    getB (bs.map f) j = f (getB bs j) := by
  unfold getB
  rw [List.getD_eq_getElem _ _ (by simpa using h), List.getD_eq_getElem _ _ h,
    List.getElem_map]

/-- Reading past the end of the list gives the zero body. -/
theorem getB_out_of_range (bs : List Body) (j : ℕ) (h : bs.length ≤ j) :
    getB bs j = Body.zero := List.getD_eq_default bs Body.zero h

/-- Full description of reading after a slot write. -/
theorem getB_setB (bs : List Body) (k j : ℕ) (w : Body) :
    getB (setB bs k w) j = if k = j ∧ j < bs.length then w else getB bs j := by
  by_cases hkj : k = j
  · subst hkj
    by_cases hk : k < bs.length
    · simp [getB_setB_self bs k w hk, hk]
    · rw [setB, List.set_eq_of_length_le (le_of_not_lt hk)]
      simp [hk, getB]
  · simp [getB_setB_ne bs k j w hkj, hkj]

/-- setSleeping never touches the static flag, the geometry or the
position impulse. -/
theorem setSleeping_keeps (b : Body) (v : Bool) :
    ((setSleeping b v).1).position = b.position ∧
    ((setSleeping b v).1).angle = b.angle ∧
    ((setSleeping b v).1).vertices = b.vertices ∧
    ((setSleeping b v).1).bounds = b.bounds ∧
    ((setSleeping b v).1).isStatic = b.isStatic ∧
    ((setSleeping b v).1).positionImpulse = b.positionImpulse := by
  unfold setSleeping
  split_ifs <;> simp

/-- Writing any slot with a body that keeps the tracked fields of the
slot's occupant preserves the static-rigidity state. -/
theorem staticFrozen_setB_keep {j n : ℕ} {snap : Body} {bs : List Body}
    (h : StaticFrozen j n snap bs) (k : ℕ) (w : Body)
    (hw : w.position = (getB bs k).position ∧ w.angle = (getB bs k).angle ∧
      w.vertices = (getB bs k).vertices ∧ w.bounds = (getB bs k).bounds ∧
      w.isStatic = (getB bs k).isStatic ∧
      w.positionImpulse = (getB bs k).positionImpulse) :
    StaticFrozen j n snap (setB bs k w) := by
  obtain ⟨hlen, hst, ⟨hp, ha, hv, hb⟩, him⟩ := h
  refine ⟨by rw [length_setB]; exact hlen, ?_, ?_, ?_⟩ <;>
    rw [getB_setB] <;> split_ifs with hc
  · rw [hw.2.2.2.2.1, hc.1]; exact hst
  · exact hst
  · obtain ⟨rfl, -⟩ := hc
    exact ⟨hw.1.trans hp, hw.2.1.trans ha, hw.2.2.1.trans hv, hw.2.2.2.1.trans hb⟩
  · exact ⟨hp, ha, hv, hb⟩
  · rw [hw.2.2.2.2.2, hc.1]; exact him
  · exact him

/-- Writing a slot other than the tracked one preserves the
static-rigidity state. -/
theorem staticFrozen_setB_of_ne {j n : ℕ} {snap : Body} {bs : List Body}
    (h : StaticFrozen j n snap bs) (k : ℕ) (w : Body) (hk : k ≠ j) :
    StaticFrozen j n snap (setB bs k w) := by
  obtain ⟨hlen, hst, hfg, him⟩ := h
  rw [StaticFrozen, getB_setB_ne bs k j w hk, length_setB]
  exact ⟨hlen, hst, hfg, him⟩

/-- Mapping a function that fixes the tracked fields of every static,
impulse-free body preserves the static-rigidity state. -/
theorem staticFrozen_map {f : Body → Body}
    (hf : ∀ b, b.isStatic = true → b.positionImpulse = ⟨0, 0⟩ →
      (f b).position = b.position ∧ (f b).angle = b.angle ∧
      (f b).vertices = b.vertices ∧ (f b).bounds = b.bounds ∧
      (f b).isStatic = true ∧ (f b).positionImpulse = ⟨0, 0⟩)
    {j n : ℕ} {snap : Body} {bs : List Body} (h : StaticFrozen j n snap bs) :
    StaticFrozen j n snap (bs.map f) := by
  obtain ⟨hlen, hst, ⟨hp, ha, hv, hb⟩, him⟩ := h
  by_cases hj : j < bs.length
  · have hg := getB_map f bs j hj
    obtain ⟨e1, e2, e3, e4, e5, e6⟩ := hf (getB bs j) hst him
    exact ⟨by simpa using hlen, by rw [hg]; exact e5,
      ⟨by rw [hg, e1]; exact hp, by rw [hg, e2]; exact ha,
       by rw [hg, e3]; exact hv, by rw [hg, e4]; exact hb⟩,
      by rw [hg]; exact e6⟩
  · rw [getB_out_of_range bs j (le_of_not_lt hj)] at hst
    simp [Body.zero] at hst

/-- The sleep update phase preserves the static-rigidity state. -/
theorem staticFrozen_updateSleeping {j n : ℕ} {snap : Body} {bs : List Body}
    (h : StaticFrozen j n snap bs) : StaticFrozen j n snap (updateSleeping bs).1 := by
  rw [updateSleeping_fst]
  refine staticFrozen_map (fun b hst him => ?_) h
  obtain ⟨k1, k2, k3, k4, k5, k6⟩ := updateSleepingBody_keeps b
  exact ⟨k2, k3, k4, k5, k1.trans hst, k6.trans him⟩

/-- The gravity phase preserves the static-rigidity state. -/
theorem staticFrozen_gravityApply (g : Vec) {j n : ℕ} {snap : Body} {bs : List Body}
    (h : StaticFrozen j n snap bs) : StaticFrozen j n snap (gravityApply g bs) := by
  unfold gravityApply
  refine staticFrozen_map (fun b hst him => ?_) h
  exact ⟨rfl, rfl, rfl, rfl, hst, him⟩

/-- The integration phase preserves the static-rigidity state: a static
body never integrates. -/
theorem staticFrozen_integrate (t : Trig) (delta lastDelta : ℚ) {j n : ℕ}
    {snap : Body} {bs : List Body} (h : StaticFrozen j n snap bs) :
    StaticFrozen j n snap (integrateBodies t delta lastDelta bs) := by
  unfold integrateBodies
  refine staticFrozen_map (fun b hst him => ?_) h
  have hsu : b.shouldUpdate = false := by simp [Body.shouldUpdate, hst]
  simp [hsu, hst, him]

/-- The collision-driven wake phase preserves the static-rigidity state:
waking a body never touches its geometry. -/
theorem staticFrozen_wake (colls : List Coll) {j n : ℕ} {snap : Body} {bs : List Body}
    (h : StaticFrozen j n snap bs) :
    StaticFrozen j n snap (updateSleepingCollisions bs colls).1 := by
  unfold updateSleepingCollisions
  refine foldl_preserve (P := fun s : List Body × List SleepEv => StaticFrozen j n snap s.1)
    ?_ colls (bs, []) h
  intro s c hs
  dsimp only
  split_ifs <;>
    first
      | exact hs
      | exact staticFrozen_setB_keep hs _ _ (setSleeping_keeps _ _)

/-- The contact-count phase preserves the static-rigidity state. -/
theorem staticFrozen_preSolve (colls : List Coll) {j n : ℕ} {snap : Body}
    {bs : List Body} (h : StaticFrozen j n snap bs) :
    StaticFrozen j n snap (preSolvePosition bs colls) := by
  unfold preSolvePosition
  refine foldl_preserve (P := fun s : List Body => StaticFrozen j n snap s) ?_ colls bs h
  intro s c hs
  dsimp only
  refine staticFrozen_setB_keep (staticFrozen_setB_keep hs _ _ ?_) _ _ ?_ <;>
    exact ⟨rfl, rfl, rfl, rfl, rfl, rfl⟩

/-- One position-solver call preserves the static-rigidity state: only
updating bodies receive position impulses, and a static body is not an
updating body. -/
theorem staticFrozen_solvePosition {j n : ℕ} {snap : Body}
    (s : List Body × List Coll) (hs : StaticFrozen j n snap s.1) :
    StaticFrozen j n snap (solvePosition s).1 := by
  unfold solvePosition
  dsimp only
  generalize solvePositionPass1 s.1 s.2 = colls2
  unfold solvePositionPass2
  refine foldl_preserve (P := fun bs : List Body => StaticFrozen j n snap bs) ?_ colls2 s.1 hs
  intro bs c hbs
  dsimp only
  have hne : ∀ k : ℕ, (getB bs k).shouldUpdate = true → k ≠ j := by
    intro k hsu he
    rw [he, Body.shouldUpdate, hbs.2.1] at hsu
    simp at hsu
  split_ifs <;>
    first
      | exact hbs
      | exact staticFrozen_setB_of_ne (staticFrozen_setB_of_ne hbs _ _ (hne _ (by assumption)))
          _ _ (hne _ (by assumption))
      | exact staticFrozen_setB_of_ne hbs _ _ (hne _ (by assumption))

/-- The iterated position solver preserves the static-rigidity state. -/
theorem staticFrozen_solvePosition_iter {j n : ℕ} {snap : Body} (m : ℕ)
    (s : List Body × List Coll) (hs : StaticFrozen j n snap s.1) :
    StaticFrozen j n snap (solvePosition^[m] s).1 :=
  iterate_preserve (P := fun st : List Body × List Coll => StaticFrozen j n snap st.1)
    (fun st h => staticFrozen_solvePosition st h) m s hs

/-- Applying the accumulated position impulses preserves the
static-rigidity state: the static body's impulse is zero. -/
theorem staticFrozen_postSolve {j n : ℕ} {snap : Body} {bs : List Body}
    (h : StaticFrozen j n snap bs) : StaticFrozen j n snap (postSolvePosition bs) := by
  unfold postSolvePosition
  refine staticFrozen_map (fun b hst him => ?_) h
  simp [him, hst]

/-- One contact step of the velocity solver preserves the
static-rigidity state: it only writes velocities, previous positions and
previous angles. -/
theorem staticFrozen_solveVelocityContact (i1 i2 : ℕ) (normal tangent : Vec)
    (restitution friction separation : ℚ) (cc : ℕ) {j n : ℕ} {snap : Body}
    (s : List Body × List Contact) (ct : Contact) (hs : StaticFrozen j n snap s.1) :
    StaticFrozen j n snap
      ((solveVelocityContact i1 i2 normal tangent restitution friction separation cc s ct).1) := by
  unfold solveVelocityContact
  dsimp only
  by_cases hu1 : (getB s.1 i1).shouldUpdate = true <;>
    by_cases hu2 : (getB s.1 i2).shouldUpdate = true <;>
    simp only [hu1, hu2, if_true, if_false] <;>
    first
      | exact hs
      | (refine staticFrozen_setB_keep hs _ _ ?_
         exact ⟨rfl, rfl, rfl, rfl, rfl, rfl⟩)
      | (refine staticFrozen_setB_keep (staticFrozen_setB_keep hs _ _ ?_) _ _ ?_ <;>
         exact ⟨rfl, rfl, rfl, rfl, rfl, rfl⟩)

/-- One collision of the velocity solver preserves the static-rigidity
state. -/
theorem staticFrozen_solveVelocityColl {j n : ℕ} {snap : Body}
    (s : List Body × List Coll) (c : Coll) (hs : StaticFrozen j n snap s.1) :
    StaticFrozen j n snap ((solveVelocityColl s c).1) := by
  unfold solveVelocityColl
  dsimp only
  refine foldl_preserve (P := fun st : List Body × List Contact => StaticFrozen j n snap st.1)
    (fun st ct h => staticFrozen_solveVelocityContact _ _ _ _ _ _ _ _ st ct h)
    c.res.contacts _ ?_
  refine staticFrozen_setB_keep (staticFrozen_setB_keep hs _ _ ?_) _ _ ?_ <;>
    exact ⟨rfl, rfl, rfl, rfl, rfl, rfl⟩

/-- One velocity-solver call preserves the static-rigidity state. -/
theorem staticFrozen_solveVelocity {j n : ℕ} {snap : Body}
    (s : List Body × List Coll) (hs : StaticFrozen j n snap s.1) :
    StaticFrozen j n snap (solveVelocity s).1 := by
  unfold solveVelocity
  exact foldl_preserve (P := fun st : List Body × List Coll => StaticFrozen j n snap st.1)
    (fun st c h => staticFrozen_solveVelocityColl st c h) s.2 (s.1, []) hs

/-- The iterated velocity solver preserves the static-rigidity state. -/
theorem staticFrozen_solveVelocity_iter {j n : ℕ} {snap : Body} (m : ℕ)
    (s : List Body × List Coll) (hs : StaticFrozen j n snap s.1) :
    StaticFrozen j n snap (solveVelocity^[m] s).1 :=
  iterate_preserve (P := fun st : List Body × List Coll => StaticFrozen j n snap st.1)
    (fun st h => staticFrozen_solveVelocity st h) m s hs

/-- The force reset phase preserves the static-rigidity state. -/
theorem staticFrozen_reset {j n : ℕ} {snap : Body} {bs : List Body}
    (h : StaticFrozen j n snap bs) : StaticFrozen j n snap (resetForces bs) := by
  unfold resetForces
  refine staticFrozen_map (fun b hst him => ?_) h
  exact ⟨rfl, rfl, rfl, rfl, hst, him⟩

/-- One full engine tick preserves the static-rigidity state. -/
theorem staticFrozen_tick (t : Trig) (e : Engine) (delta lastDelta : ℚ)
    {j n : ℕ} {snap : Body} (h : StaticFrozen j n snap e.bodies) :
    StaticFrozen j n snap (Engine.update t e delta lastDelta).1.bodies := by
  simp only [Engine.update]
  apply staticFrozen_reset
  apply staticFrozen_solveVelocity_iter
  apply staticFrozen_postSolve
  apply staticFrozen_solvePosition_iter
  apply staticFrozen_preSolve
  split_ifs with hs
  · apply staticFrozen_wake
    apply staticFrozen_integrate
    apply staticFrozen_gravityApply
    apply staticFrozen_updateSleeping
    exact h
  · apply staticFrozen_integrate
    apply staticFrozen_gravityApply
    exact h

/-- C4: a body with isStatic = true in the engine's body list has
identical position, angle, vertices and bounds before and after any
number of calls to Engine.update, whatever collisions occur during those
ticks.  The position-impulse hypothesis states that the body carries no
leftover solver impulse; the engine itself re-establishes it at the end
of every tick, and a freshly constructed body satisfies it. -/
theorem C4_static_rigidity (t : Trig) (e : Engine) (dts : List (ℚ × ℚ)) (j : ℕ)
    (hst : (getB e.bodies j).isStatic = true)
    (him : (getB e.bodies j).positionImpulse = ⟨0, 0⟩) :
    (getB (Engine.run t e dts).bodies j).position = (getB e.bodies j).position ∧
    (getB (Engine.run t e dts).bodies j).angle = (getB e.bodies j).angle ∧
    (getB (Engine.run t e dts).bodies j).vertices = (getB e.bodies j).vertices ∧
    (getB (Engine.run t e dts).bodies j).bounds = (getB e.bodies j).bounds := by
  have main : ∀ (l : List (ℚ × ℚ)) (e2 : Engine),
      StaticFrozen j e.bodies.length (getB e.bodies j) e2.bodies →
      StaticFrozen j e.bodies.length (getB e.bodies j) (Engine.run t e2 l).bodies := by
    intro l
    induction l with
    | nil => intro e2 h2; simpa [Engine.run] using h2
    | cons dt rest ih =>
        intro e2 h2
        rw [Engine.run]
        exact ih _ (staticFrozen_tick t e2 dt.1 dt.2 h2)
  obtain ⟨-, -, hfg, -⟩ := main dts e ⟨rfl, hst, ⟨rfl, rfl, rfl, rfl⟩, him⟩
  exact hfg

/-- Witness for C4 on a concrete one-static-body engine and one tick. -/
theorem C4_static_rigidity_witness :
    (getB witnessEngineStatic.bodies 0).isStatic = true ∧
    (getB witnessEngineStatic.bodies 0).positionImpulse = ⟨0, 0⟩ ∧
    ((getB (Engine.run trivTrig witnessEngineStatic [(1, 1)]).bodies 0).position =
        (getB witnessEngineStatic.bodies 0).position ∧
      (getB (Engine.run trivTrig witnessEngineStatic [(1, 1)]).bodies 0).angle =
        (getB witnessEngineStatic.bodies 0).angle ∧
      (getB (Engine.run trivTrig witnessEngineStatic [(1, 1)]).bodies 0).vertices =
        (getB witnessEngineStatic.bodies 0).vertices ∧
      (getB (Engine.run trivTrig witnessEngineStatic [(1, 1)]).bodies 0).bounds =
        (getB witnessEngineStatic.bodies 0).bounds) :=
  ⟨rfl, rfl, C4_static_rigidity trivTrig witnessEngineStatic [(1, 1)] 0 rfl rfl⟩

/-- Subtracting a vector from itself gives the zero vector. -/
theorem Vec.sub_self_eq (v : Vec) : v.sub v = ⟨0, 0⟩ := by
  simp [Vec.sub]

/-- The zero body satisfies the sleep invariant (it is awake). -/
theorem sleepInv_zero : SleepInv Body.zero := fun h => absurd h (by decide)

/-- setSleeping preserves the sleep invariant. -/
theorem sleepInv_setSleeping (b : Body) (v : Bool) (h : SleepInv b) :
    SleepInv (setSleeping b v).1 := by
  unfold setSleeping
  split_ifs with h1 h2
  · exact h
  · intro _
    exact ⟨rfl, rfl, rfl, rfl⟩
  · intro hsl
    exact absurd hsl h2

/-- The per-body sleep update preserves the sleep invariant. -/
theorem sleepInv_updateSleepingBody (b : Body) (h : SleepInv b) :
    SleepInv (updateSleepingBody b).1 := by
  simp only [updateSleepingBody]
  split_ifs <;>
    first
      | exact sleepInv_setSleeping _ _ h
      | exact h

/-- Integration does not change the sleeping flag. -/
theorem bodyUpdate_isSleeping (t : Trig) (b : Body) (delta lastDelta : ℚ) :
    (Body.update t b delta lastDelta).isSleeping = b.isSleeping := by
  simp only [Body.update]
  split_ifs <;> rfl

/-- A pointwise property carried by the list and by the written body is
carried after the slot write. -/
theorem allQ_setB {Q : Body → Prop} {bs : List Body} (h : ∀ b ∈ bs, Q b)
    (k : ℕ) (w : Body) (hw : Q w) : ∀ b ∈ setB bs k w, Q b := by
  intro b hb
  rcases mem_setB bs k w b hb with h1 | h2
  · exact h b h1
  · exact h2 ▸ hw

/-- A pointwise property carried by the list and by the zero body is
carried by every slot read. -/
theorem allQ_getB {Q : Body → Prop} {bs : List Body} (h : ∀ b ∈ bs, Q b)
    (hz : Q Body.zero) (k : ℕ) : Q (getB bs k) := by
  by_cases hk : k < bs.length
  · rw [getB, List.getD_eq_getElem _ _ hk]
    exact h _ (List.getElem_mem hk)
  · rw [getB_out_of_range bs k (le_of_not_lt hk)]
    exact hz

/-- The sleep invariant ignores the contact total. -/
theorem sleepInv_tcSet (b : Body) (k : ℕ) (h : SleepInv b) :
    SleepInv { b with totalContacts := k } := h

/-- The sleep invariant ignores the position impulse. -/
theorem sleepInv_impulseSet (b : Body) (imp : Vec) (h : SleepInv b) :
    SleepInv { b with positionImpulse := imp } := h

/-- The sleep update phase preserves the sleep invariant of every body. -/
theorem sleepAll_updateSleeping {bs : List Body} (h : ∀ b ∈ bs, SleepInv b) :
    ∀ b ∈ (updateSleeping bs).1, SleepInv b := by
  rw [updateSleeping_fst]
  intro b hb
  obtain ⟨a, ha, rfl⟩ := List.mem_map.mp hb
  exact sleepInv_updateSleepingBody a (h a ha)

/-- The gravity phase preserves the sleep invariant of every body. -/
theorem sleepAll_gravity (g : Vec) {bs : List Body} (h : ∀ b ∈ bs, SleepInv b) :
    ∀ b ∈ gravityApply g bs, SleepInv b := by
  intro b hb
  unfold gravityApply at hb
  obtain ⟨a, ha, rfl⟩ := List.mem_map.mp hb
  exact h a ha

/-- The integration phase preserves the sleep invariant of every body:
integrated bodies are awake, so the invariant is vacuous for them. -/
theorem sleepAll_integrate (t : Trig) (delta lastDelta : ℚ) {bs : List Body}
    (h : ∀ b ∈ bs, SleepInv b) : ∀ b ∈ integrateBodies t delta lastDelta bs, SleepInv b := by
  intro b hb
  unfold integrateBodies at hb
  obtain ⟨a, ha, rfl⟩ := List.mem_map.mp hb
  by_cases hsu : a.shouldUpdate = true
  · rw [if_pos hsu]
    intro habs
    rw [bodyUpdate_isSleeping] at habs
    rw [Body.shouldUpdate, habs] at hsu
    simp at hsu
  · rw [if_neg hsu]
    exact h a ha

/-- The collision-driven wake phase preserves the sleep invariant of
every body. -/
theorem sleepAll_wake (colls : List Coll) {bs : List Body} (h : ∀ b ∈ bs, SleepInv b) :
    ∀ b ∈ (updateSleepingCollisions bs colls).1, SleepInv b := by
  unfold updateSleepingCollisions
  refine foldl_preserve (P := fun s : List Body × List SleepEv => ∀ b ∈ s.1, SleepInv b)
    ?_ colls (bs, []) h
  intro s c hs
  dsimp only
  split_ifs <;>
    first
      | exact hs
      | exact allQ_setB hs _ _ (sleepInv_setSleeping _ _ (allQ_getB hs sleepInv_zero _))

/-- The contact-count phase preserves the sleep invariant of every
body. -/
theorem sleepAll_preSolve (colls : List Coll) {bs : List Body}
    (h : ∀ b ∈ bs, SleepInv b) : ∀ b ∈ preSolvePosition bs colls, SleepInv b := by
  unfold preSolvePosition
  refine foldl_preserve (P := fun s : List Body => ∀ b ∈ s, SleepInv b) ?_ colls bs h
  intro s c hs
  dsimp only
  refine allQ_setB (allQ_setB hs _ _ ?_) _ _ ?_
  · exact sleepInv_tcSet _ _ (allQ_getB hs sleepInv_zero _)
  · exact sleepInv_tcSet _ _
      (allQ_getB (allQ_setB hs _ _ (sleepInv_tcSet _ _ (allQ_getB hs sleepInv_zero _)))
        sleepInv_zero _)

/-- A body whose sleeping flag is false satisfies the sleep invariant
after any rewrite of its previous position and angle. -/
theorem sleepInv_impApply (b : Body) (p : Vec) (q : ℚ) (h : b.isSleeping = false) :
    SleepInv { b with previousPosition := p, previousAngle := q } := by
  intro habs
  have hx : b.isSleeping = true := habs
  rw [h] at hx
  exact absurd hx (by decide)

/-- Rewriting the Verlet state does not change the sleeping flag. -/
theorem impApply_isSleeping (b : Body) (p : Vec) (q : ℚ) :
    ({ b with previousPosition := p, previousAngle := q } : Body).isSleeping = b.isSleeping := rfl

/-- An updating body is not sleeping. -/
theorem notSleeping_of_shouldUpdate {b : Body} (h : b.shouldUpdate = true) :
    b.isSleeping = false := by
  rw [Body.shouldUpdate] at h
  simp at h
  exact h.2

/-- Refreshing the cached velocities from the Verlet state preserves the
sleep invariant: for a sleeping body both differences are zero. -/
theorem sleepInv_refresh (b : Body) (h : SleepInv b) :
    SleepInv { b with velocity := b.position.sub b.previousPosition,
                      angularVelocity := b.angle - b.previousAngle } := by
  intro hsl
  obtain ⟨hv, hw, hp, hq⟩ := h hsl
  refine ⟨?_, ?_, hp, hq⟩
  · show b.position.sub b.previousPosition = (⟨0, 0⟩ : Vec)
    rw [hp]
    exact Vec.sub_self_eq _
  · show b.angle - b.previousAngle = 0
    rw [hq]
    exact sub_self _

/-- The position-solver impulse pass preserves the sleep invariant of
every body. -/
theorem sleepAll_solvePosition (s : List Body × List Coll)
    (hs : ∀ b ∈ s.1, SleepInv b) : ∀ b ∈ (solvePosition s).1, SleepInv b := by
  unfold solvePosition
  dsimp only
  generalize solvePositionPass1 s.1 s.2 = colls2
  unfold solvePositionPass2
  refine foldl_preserve (P := fun bs : List Body => ∀ b ∈ bs, SleepInv b) ?_ colls2 s.1 hs
  intro bs c hbs
  dsimp only
  split_ifs <;>
    first
      | exact hbs
      | (refine allQ_setB (allQ_setB hbs _ _ ?_) _ _ ?_
         · exact sleepInv_impulseSet _ _ (allQ_getB hbs sleepInv_zero _)
         · exact sleepInv_impulseSet _ _
             (allQ_getB (allQ_setB hbs _ _
               (sleepInv_impulseSet _ _ (allQ_getB hbs sleepInv_zero _))) sleepInv_zero _))
      | (refine allQ_setB hbs _ _ ?_
         exact sleepInv_impulseSet _ _ (allQ_getB hbs sleepInv_zero _))

/-- Applying the accumulated position impulses preserves the sleep
invariant: position and previous position shift by the same vector. -/
theorem sleepAll_postSolve {bs : List Body} (h : ∀ b ∈ bs, SleepInv b) :
    ∀ b ∈ postSolvePosition bs, SleepInv b := by
  intro b hb
  unfold postSolvePosition at hb
  obtain ⟨a, ha, rfl⟩ := List.mem_map.mp hb
  have hia := h a ha
  dsimp only
  split_ifs with hc
  · intro hsl
    obtain ⟨hv, hw, hp, hq⟩ := hia hsl
    refine ⟨hv, hw, ?_, hq⟩
    dsimp only
    rw [hp]
  · exact sleepInv_tcSet _ _ hia

/-- One contact step of the velocity solver preserves the sleep
invariant of every body: it rewrites the Verlet state only of updating,
hence awake, bodies. -/
theorem sleepAll_solveVelocityContact (i1 i2 : ℕ) (normal tangent : Vec)
    (restitution friction separation : ℚ) (cc : ℕ)
    (s : List Body × List Contact) (ct : Contact) (hs : ∀ b ∈ s.1, SleepInv b) :
    ∀ b ∈ (solveVelocityContact i1 i2 normal tangent restitution friction
      separation cc s ct).1, SleepInv b := by
  unfold solveVelocityContact
  dsimp only
  by_cases hu1 : (getB s.1 i1).shouldUpdate = true <;>
    by_cases hu2 : (getB s.1 i2).shouldUpdate = true <;>
    simp only [hu1, hu2, if_true, if_false]
  · refine allQ_setB (allQ_setB hs _ _ ?_) _ _ ?_
    · exact sleepInv_impApply _ _ _ (notSleeping_of_shouldUpdate hu1)
    · refine sleepInv_impApply _ _ _ ?_
      rw [getB_setB]
      by_cases hcc : i1 = i2 ∧ i2 < s.1.length
      · rw [if_pos hcc, impApply_isSleeping]
        exact notSleeping_of_shouldUpdate hu1
      · rw [if_neg hcc]
        exact notSleeping_of_shouldUpdate hu2
  · refine allQ_setB hs _ _ ?_
    exact sleepInv_impApply _ _ _ (notSleeping_of_shouldUpdate hu1)
  · refine allQ_setB hs _ _ ?_
    exact sleepInv_impApply _ _ _ (notSleeping_of_shouldUpdate hu2)
  · exact hs

/-- One collision of the velocity solver preserves the sleep invariant
of every body. -/
theorem sleepAll_solveVelocityColl (s : List Body × List Coll) (c : Coll)
    (hs : ∀ b ∈ s.1, SleepInv b) : ∀ b ∈ (solveVelocityColl s c).1, SleepInv b := by
  unfold solveVelocityColl
  dsimp only
  refine foldl_preserve (P := fun st : List Body × List Contact => ∀ b ∈ st.1, SleepInv b)
    (fun st ct h => sleepAll_solveVelocityContact _ _ _ _ _ _ _ _ st ct h)
    c.res.contacts _ ?_
  refine allQ_setB (allQ_setB hs _ _ ?_) _ _ ?_
  · exact sleepInv_refresh _ (allQ_getB hs sleepInv_zero _)
  · exact sleepInv_refresh _
      (allQ_getB (allQ_setB hs _ _ (sleepInv_refresh _ (allQ_getB hs sleepInv_zero _)))
        sleepInv_zero _)

/-- One velocity-solver call preserves the sleep invariant of every
body. -/
theorem sleepAll_solveVelocity (s : List Body × List Coll)
    (hs : ∀ b ∈ s.1, SleepInv b) : ∀ b ∈ (solveVelocity s).1, SleepInv b := by
  unfold solveVelocity
  exact foldl_preserve (P := fun st : List Body × List Coll => ∀ b ∈ st.1, SleepInv b)
    (fun st c h => sleepAll_solveVelocityColl st c h) s.2 (s.1, []) hs

/-- The iterated position solver preserves the sleep invariant. -/
theorem sleepAll_solvePosition_iter (m : ℕ) (s : List Body × List Coll)
    (hs : ∀ b ∈ s.1, SleepInv b) : ∀ b ∈ (solvePosition^[m] s).1, SleepInv b :=
  iterate_preserve (P := fun st : List Body × List Coll => ∀ b ∈ st.1, SleepInv b)
    (fun st h => sleepAll_solvePosition st h) m s hs

/-- The iterated velocity solver preserves the sleep invariant. -/
theorem sleepAll_solveVelocity_iter (m : ℕ) (s : List Body × List Coll)
    (hs : ∀ b ∈ s.1, SleepInv b) : ∀ b ∈ (solveVelocity^[m] s).1, SleepInv b :=
  iterate_preserve (P := fun st : List Body × List Coll => ∀ b ∈ st.1, SleepInv b)
    (fun st h => sleepAll_solveVelocity st h) m s hs

/-- The force reset phase preserves the sleep invariant of every body. -/
theorem sleepAll_reset {bs : List Body} (h : ∀ b ∈ bs, SleepInv b) :
    ∀ b ∈ resetForces bs, SleepInv b := by
  intro b hb
  unfold resetForces at hb
  obtain ⟨a, ha, rfl⟩ := List.mem_map.mp hb
  exact h a ha

/-- One full engine tick preserves the sleep invariant of every body. -/
theorem sleepAll_tick (t : Trig) (e : Engine) (delta lastDelta : ℚ)
    (h : ∀ b ∈ e.bodies, SleepInv b) :
    ∀ b ∈ (Engine.update t e delta lastDelta).1.bodies, SleepInv b := by
  simp only [Engine.update]
  apply sleepAll_reset
  apply sleepAll_solveVelocity_iter
  apply sleepAll_postSolve
  apply sleepAll_solvePosition_iter
  apply sleepAll_preSolve
  split_ifs with hs
  · apply sleepAll_wake
    apply sleepAll_integrate
    apply sleepAll_gravity
    apply sleepAll_updateSleeping
    exact h
  · apply sleepAll_integrate
    apply sleepAll_gravity
    exact h

/-- C8: a body that is sleeping at the end of an engine tick has zero
velocity and angular velocity, previousPosition = position and
previousAngle = angle, also when it took part in collisions solved
during the tick.  The hypothesis states the same invariant at the start
of the tick; bodies are constructed awake and only the engine itself
ever puts one to sleep, aligning exactly these fields, so every
reachable state satisfies it. -/
theorem C8_sleeping_at_rest (t : Trig) (e : Engine) (delta lastDelta : ℚ)
    (h : ∀ b ∈ e.bodies, SleepInv b) (b : Body)
    (hb : b ∈ (Engine.update t e delta lastDelta).1.bodies)
    (hsl : b.isSleeping = true) :
    b.velocity = ⟨0, 0⟩ ∧ b.angularVelocity = 0 ∧
    b.previousPosition = b.position ∧ b.previousAngle = b.angle :=
  sleepAll_tick t e delta lastDelta h b hb hsl

/-- The one-sleeping-body witness engine after one tick: the only change
is the sleep counter moving to one. -/
theorem witnessEngineSleep_update_eval :
    (Engine.update trivTrig witnessEngineSleep 1 1).1.bodies =
      [{ witnessSleepingBody with sleepCounter := 1 }] := by
  norm_num [Engine.update, updateSleeping, updateSleepingBody, setSleeping,
    updateSleepingCollisions, broadPhase, narrowPhase, preSolvePosition,
    solvePosition_iter_nil, solveVelocity_iter_nil, postSolvePosition,
    gravityApply, integrateBodies, resetForces,
    witnessEngineSleep, witnessSleepingBody, defaultOptions, trivTrig, Body.zero,
    getB, setB, Vec.add, Vec.scalar, Vec.lengthSquared, Body.shouldUpdate,
    Bounds.overlap, sleepMaxMotionForSleep, List.range_succ, List.foldl_cons, List.foldl_nil]

/-- Witness for C8 on a concrete engine holding one sleeping body. -/
theorem C8_sleeping_at_rest_witness :
    SleepInv witnessSleepingBody ∧
    ({ witnessSleepingBody with sleepCounter := 1 } : Body).isSleeping = true ∧
    (({ witnessSleepingBody with sleepCounter := 1 } : Body).velocity = ⟨0, 0⟩ ∧
     ({ witnessSleepingBody with sleepCounter := 1 } : Body).angularVelocity = 0 ∧
     ({ witnessSleepingBody with sleepCounter := 1 } : Body).previousPosition =
       ({ witnessSleepingBody with sleepCounter := 1 } : Body).position ∧
     ({ witnessSleepingBody with sleepCounter := 1 } : Body).previousAngle =
       ({ witnessSleepingBody with sleepCounter := 1 } : Body).angle) := by
  have hall : ∀ b ∈ witnessEngineSleep.bodies, SleepInv b := by
    intro b hb
    have : b = witnessSleepingBody := by simpa [witnessEngineSleep] using hb
    subst this
    intro _
    exact ⟨rfl, rfl, rfl, rfl⟩
  have hmem : ({ witnessSleepingBody with sleepCounter := 1 } : Body) ∈
      (Engine.update trivTrig witnessEngineSleep 1 1).1.bodies := by
    rw [witnessEngineSleep_update_eval]
    exact List.mem_singleton.mpr rfl
  exact ⟨hall witnessSleepingBody (by simp [witnessEngineSleep]),
    rfl,
    C8_sleeping_at_rest trivTrig witnessEngineSleep 1 1 hall _ hmem rfl⟩

/-! ### Vector algebra for the separating-axis development -/

/-- Two-dimensional vectors are equal when both components are. -/
theorem Vec.ext_q (v w : Vec) (hx : v.x = w.x) (hy : v.y = w.y) : v = w := by
  cases v; cases w; cases hx; cases hy; rfl

/-- The dot product is symmetric. -/
theorem Vec.dot_comm (v w : Vec) : v.dot w = w.dot v := by
  simp only [Vec.dot]; ring

/-- Scaling the left argument of the dot product. -/
theorem Vec.scalar_dot (v w : Vec) (c : ℚ) : (v.scalar c).dot w = c * v.dot w := by
  simp only [Vec.scalar, Vec.dot]; ring

/-- The dot product distributes over subtraction on the right. -/
theorem Vec.dot_sub (a v w : Vec) : a.dot (v.sub w) = a.dot v - a.dot w := by
  simp only [Vec.dot, Vec.sub]; ring

/-- The dot product distributes over subtraction on the left. -/
theorem Vec.sub_dot (v w a : Vec) : (v.sub w).dot a = v.dot a - w.dot a := by
  simp only [Vec.dot, Vec.sub]; ring

/-- The cross product of a vector with itself vanishes. -/
theorem Vec.cross_self (v : Vec) : v.cross v = 0 := by
  simp only [Vec.cross]; ring

/-- The cross product is antisymmetric. -/
theorem Vec.cross_skew (v w : Vec) : v.cross w = -(w.cross v) := by
  simp only [Vec.cross]; ring

/-- Crossing with a perpendicular recovers the dot product. -/
theorem Vec.cross_perp (e u : Vec) : e.cross u.perp = e.dot u := by
  simp only [Vec.cross, Vec.perp, Vec.dot]; ring

/-- Dotting a perpendicular against a vector is the cross product. -/
theorem Vec.perp_dot (e d : Vec) : e.perp.dot d = e.cross d := by
  simp only [Vec.cross, Vec.perp, Vec.dot]; ring

/-- The cross product distributes over subtraction on the right. -/
theorem Vec.cross_sub (a v w : Vec) : a.cross (v.sub w) = a.cross v - a.cross w := by
  simp only [Vec.cross, Vec.sub]; ring

/-- Scaling the right argument of the cross product. -/
theorem Vec.cross_scalar (v w : Vec) (c : ℚ) : v.cross (w.scalar c) = c * v.cross w := by
  simp only [Vec.cross, Vec.scalar]; ring

/-- Composition of scalings. -/
theorem Vec.scalar_scalar (v : Vec) (c d : ℚ) : (v.scalar c).scalar d = v.scalar (c * d) := by
  refine Vec.ext_q _ _ ?_ ?_ <;> simp only [Vec.scalar] <;> ring

/-- Scaling by one is the identity. -/
theorem Vec.scalar_one (v : Vec) : v.scalar 1 = v := by
  refine Vec.ext_q _ _ ?_ ?_ <;> simp only [Vec.scalar] <;> ring

/-- Transitivity of the polar comparison inside a strict open halfplane:
whenever a, b, c all have positive dot product with w, and a precedes b
and b precedes c in the cross-product order, a precedes c. -/
theorem polar_trans (w a b c : Vec) (ha : 0 < w.dot a) (hb : 0 < w.dot b)
    (hc : 0 < w.dot c) (h1 : 0 ≤ a.cross b) (h2 : 0 ≤ b.cross c) :
    0 ≤ a.cross c := by
  by_contra hac
  push_neg at hac
  have hid : a.cross c * w.dot b = b.cross c * w.dot a + a.cross b * w.dot c := by
    simp only [Vec.cross, Vec.dot]; ring
  have hA : 0 ≤ b.cross c * w.dot a := mul_nonneg h2 ha.le
  have hB : 0 ≤ a.cross b * w.dot c := mul_nonneg h1 hc.le
  have hC : a.cross c * w.dot b < 0 := mul_neg_of_neg_of_pos hac hb
  linarith

/-- Every nonempty finite family of vectors inside a strict open
halfplane has a polar minimum. -/
theorem polar_exists_min (w : Vec) :
    ∀ l : List Vec, l ≠ [] → (∀ v ∈ l, 0 < w.dot v) →
    ∃ m ∈ l, ∀ v ∈ l, 0 ≤ m.cross v := by
  intro l
  induction l with
  | nil => intro h; exact absurd rfl h
  | cons a t ih =>
    intro _ hl
    by_cases ht : t = []
    · subst ht
      refine ⟨a, List.mem_cons_self a [], ?_⟩
      intro v hv
      have hva : v = a := by simpa using hv
      subst hva
      simp [Vec.cross_self]
    · obtain ⟨m, hm, hmin⟩ := ih ht (fun v hv => hl v (List.mem_cons_of_mem a hv))
      by_cases hcmp : 0 ≤ a.cross m
      · refine ⟨a, List.mem_cons_self a t, ?_⟩
        intro v hv
        rcases List.mem_cons.mp hv with rfl | hv'
        · simp [Vec.cross_self]
        · exact polar_trans w a m v (hl a (List.mem_cons_self a t))
            (hl m (List.mem_cons_of_mem a hm)) (hl v (List.mem_cons_of_mem a hv'))
            hcmp (hmin v hv')
      · refine ⟨m, List.mem_cons_of_mem a hm, ?_⟩
        intro v hv
        rcases List.mem_cons.mp hv with rfl | hv'
        · push_neg at hcmp
          have hks := Vec.cross_skew m v
          linarith
        · exact hmin v hv'

/-- Every nonempty finite family of vectors inside a strict open
halfplane has a polar maximum. -/
theorem polar_exists_max (w : Vec) :
    ∀ l : List Vec, l ≠ [] → (∀ v ∈ l, 0 < w.dot v) →
    ∃ m ∈ l, ∀ v ∈ l, 0 ≤ v.cross m := by
  intro l
  induction l with
  | nil => intro h; exact absurd rfl h
  | cons a t ih =>
    intro _ hl
    by_cases ht : t = []
    · subst ht
      refine ⟨a, List.mem_cons_self a [], ?_⟩
      intro v hv
      have hva : v = a := by simpa using hv
      subst hva
      simp [Vec.cross_self]
    · obtain ⟨m, hm, hmax⟩ := ih ht (fun v hv => hl v (List.mem_cons_of_mem a hv))
      by_cases hcmp : 0 ≤ m.cross a
      · refine ⟨a, List.mem_cons_self a t, ?_⟩
        intro v hv
        rcases List.mem_cons.mp hv with rfl | hv'
        · simp [Vec.cross_self]
        · exact polar_trans w v m a (hl v (List.mem_cons_of_mem a hv'))
            (hl m (List.mem_cons_of_mem a hm)) (hl a (List.mem_cons_self a t))
            (hmax v hv') hcmp
      · refine ⟨m, List.mem_cons_of_mem a hm, ?_⟩
        intro v hv
        rcases List.mem_cons.mp hv with rfl | hv'
        · push_neg at hcmp
          have hks := Vec.cross_skew v m
          linarith
        · exact hmax v hv'

/-- A vector with zero cross product against a nonzero vector is a
scalar multiple of it. -/
theorem parallel_of_cross_eq_zero (u v : Vec) (hu : ¬(u.x = 0 ∧ u.y = 0))
    (h : u.cross v = 0) : ∃ c : ℚ, v = u.scalar c := by
  simp only [Vec.cross] at h
  by_cases hx : u.x = 0
  · have hy : u.y ≠ 0 := fun hy => hu ⟨hx, hy⟩
    refine ⟨v.y / u.y, Vec.ext_q _ _ ?_ ?_⟩
    · simp only [Vec.scalar, hx, zero_mul]
      have h2 : u.y * v.x = 0 := by rw [hx] at h; linarith
      rcases mul_eq_zero.mp h2 with h3 | h3
      · exact absurd h3 hy
      · exact h3
    · simp only [Vec.scalar]
      field_simp
  · refine ⟨v.x / u.x, Vec.ext_q _ _ ?_ ?_⟩
    · simp only [Vec.scalar]; field_simp
    · simp only [Vec.scalar]
      field_simp
      linarith

/-- Adding a positive shift below the modulus moves every residue. -/
theorem mod_shift_ne (n k d : ℕ) (hk : k < n) (hd1 : 0 < d) (hdn : d < n) :
    (k + d) % n ≠ k := by
  intro h
  have h1 : (k + d) % n = k % n := by rw [h, Nat.mod_eq_of_lt hk]
  have h2 : n ∣ (k + d) - k := (Nat.modEq_iff_dvd' (Nat.le_add_right k d)).mp h1.symm
  have h3 : (k + d) - k = d := by omega
  rw [h3] at h2
  exact absurd (Nat.le_of_dvd hd1 h2) (by omega)

/-- Consecutive cyclic successors are distinct when there are at least
two residues. -/
theorem mod_succ_ne (n k : ℕ) (h2 : 2 ≤ n) :
    (k + 2) % n ≠ (k + 1) % n := by
  intro h
  have h2' : n ∣ (k + 2) - (k + 1) := (Nat.modEq_iff_dvd' (by omega)).mp h.symm
  have h3 : (k + 2) - (k + 1) = 1 := by omega
  rw [h3] at h2'
  have := Nat.le_of_dvd (by omega) h2'
  omega

/-- The cyclic successor map is injective on residues. -/
theorem mod_succ_inj (n i j : ℕ) (hi : i < n) (hj : j < n)
    (h : (i + 1) % n = (j + 1) % n) : i = j := by
  have h' : i % n = j % n := Nat.ModEq.add_right_cancel' 1 h
  rwa [Nat.mod_eq_of_lt hi, Nat.mod_eq_of_lt hj] at h'

/-- In a strictly convex polygon with at least three vertices, vertices
at distinct indices are distinct points. -/
theorem convex_vertices_distinct (σ : ℚ) (vs : List Vec)
    (hc : StrictlyConvexPoly σ vs) (h3 : 3 ≤ vs.length)
    (i j : ℕ) (hi : i < vs.length) (hj : j < vs.length) (hij : i ≠ j) :
    vs.getD i default ≠ vs.getD j default := by
  intro heq
  by_cases hadj : j = (i + 1) % vs.length
  · have hji : i ≠ j := hij
    have h2 : i ≠ (j + 1) % vs.length := by
      intro h'
      have hjj : (j + 1) % vs.length = (i + 2) % vs.length := by
        rw [hadj, Nat.mod_add_mod]
      rw [hjj] at h'
      exact mod_shift_ne vs.length i 2 hi (by omega) (by omega) h'.symm
    have := hc j hj i hi hij h2
    rw [heq.symm] at this
    have hz : (vs.getD i default).sub (vs.getD i default) = ⟨0, 0⟩ := by
      refine Vec.ext_q _ _ ?_ ?_ <;> simp [Vec.sub]
    rw [hz] at this
    simp only [Vec.cross] at this
    norm_num at this
  · have := hc i hi j hj (Ne.symm hij) hadj
    rw [heq.symm] at this
    have hz : (vs.getD i default).sub (vs.getD i default) = ⟨0, 0⟩ := by
      refine Vec.ext_q _ _ ?_ ?_ <;> simp [Vec.sub]
    rw [hz] at this
    simp only [Vec.cross] at this
    norm_num at this

/-- An element picked by getD at an in-range index is a member. -/
theorem getD_mem_of_lt (l : List Vec) (i : ℕ) (h : i < l.length) :
    l.getD i default ∈ l := by
  rw [List.getD_eq_getElem l default h]
  exact List.getElem_mem h

/-- Some pair of a finite family of vectors inside a common open
halfplane spans a line with the whole family weakly on one side and the
origin weakly on the other. -/
theorem visible_pair (w : Vec) (l : List Vec) (hl : ∀ v ∈ l, 0 < w.dot v)
    (u₀ v₀ : Vec) (hu₀ : u₀ ∈ l) (hv₀ : v₀ ∈ l) (huv : u₀ ≠ v₀) :
    ∃ a ∈ l, ∃ b ∈ l, a ≠ b ∧ (∀ d ∈ l, 0 ≤ (b.sub a).cross (d.sub a)) ∧
      0 ≤ (b.sub a).cross a := by
  have hne : l ≠ [] := fun h => by subst h; exact List.not_mem_nil u₀ hu₀
  obtain ⟨t₁, ht₁, hmin⟩ := polar_exists_min w l hne hl
  have ht₁z : ¬(t₁.x = 0 ∧ t₁.y = 0) := by
    rintro ⟨hx, hy⟩
    have hdz := hl t₁ ht₁
    simp only [Vec.dot, hx, hy] at hdz
    norm_num at hdz
  by_cases hray : ∃ d ∈ l, d ≠ t₁ ∧ t₁.cross d = 0
  · obtain ⟨d₀, hd₀, hd₀t, hcr⟩ := hray
    obtain ⟨μ, hμ⟩ := parallel_of_cross_eq_zero t₁ d₀ ht₁z hcr
    have hμpos : 0 < μ := by
      have h1 := hl d₀ hd₀
      have h2 := hl t₁ ht₁
      rw [hμ] at h1
      have h3 : w.dot (t₁.scalar μ) = μ * w.dot t₁ := by
        simp only [Vec.dot, Vec.scalar]; ring
      rw [h3] at h1
      nlinarith
    have hμ1 : μ ≠ 1 := by
      intro h
      rw [h, Vec.scalar_one] at hμ
      exact hd₀t hμ
    rcases lt_or_gt_of_ne hμ1 with hlt | hgt
    · refine ⟨d₀, hd₀, t₁, ht₁, hd₀t, ?_, ?_⟩
      · intro d hd
        have hcrd := hmin d hd
        rw [hμ]
        simp only [Vec.cross, Vec.sub, Vec.scalar] at hcrd ⊢
        nlinarith [mul_nonneg (by linarith : (0:ℚ) ≤ 1 - μ) hcrd]
      · rw [hμ]
        simp only [Vec.cross, Vec.sub, Vec.scalar]
        nlinarith []
    · refine ⟨t₁, ht₁, d₀, hd₀, Ne.symm hd₀t, ?_, ?_⟩
      · intro d hd
        have hcrd := hmin d hd
        rw [hμ]
        simp only [Vec.cross, Vec.sub, Vec.scalar] at hcrd ⊢
        nlinarith [mul_nonneg (by linarith : (0:ℚ) ≤ μ - 1) hcrd]
      · rw [hμ]
        simp only [Vec.cross, Vec.sub, Vec.scalar]
        nlinarith []
  · push_neg at hray
    have hstrict : ∀ d ∈ l, d ≠ t₁ → 0 < t₁.cross d := fun d hd hdt =>
      lt_of_le_of_ne (hmin d hd) (Ne.symm (hray d hd hdt))
    have hex : ∃ d ∈ l, d ≠ t₁ := by
      by_cases h : u₀ = t₁
      · exact ⟨v₀, hv₀, fun hv => huv (by rw [h, hv])⟩
      · exact ⟨u₀, hu₀, h⟩
    have hmem' : ∀ x, x ∈ (l.filter (fun v => v != t₁)).map (fun v => v.sub t₁) ↔
        ∃ d ∈ l, d ≠ t₁ ∧ x = d.sub t₁ := by
      intro x
      simp only [List.mem_map, List.mem_filter, bne_iff_ne]
      constructor
      · rintro ⟨d, ⟨hd, hdt⟩, rfl⟩; exact ⟨d, hd, hdt, rfl⟩
      · rintro ⟨d, hd, hdt, rfl⟩; exact ⟨d, ⟨hd, hdt⟩, rfl⟩
    have hl'ne : (l.filter (fun v => v != t₁)).map (fun v => v.sub t₁) ≠ [] := by
      obtain ⟨d, hd, hdt⟩ := hex
      intro h
      have hmem : d.sub t₁ ∈ (l.filter (fun v => v != t₁)).map (fun v => v.sub t₁) :=
        (hmem' _).mpr ⟨d, hd, hdt, rfl⟩
      rw [h] at hmem
      exact List.not_mem_nil _ hmem
    have hl'pos : ∀ x ∈ (l.filter (fun v => v != t₁)).map (fun v => v.sub t₁),
        0 < t₁.perp.dot x := by
      intro x hx
      obtain ⟨d, hd, hdt, rfl⟩ := (hmem' x).mp hx
      rw [Vec.perp_dot, Vec.cross_sub, Vec.cross_self]
      have hsd := hstrict d hd hdt
      linarith
    obtain ⟨vh, hvh, hmax⟩ := polar_exists_max t₁.perp _ hl'ne hl'pos
    obtain ⟨dh, hdh, hdht, hveq⟩ := (hmem' vh).mp hvh
    refine ⟨dh, hdh, t₁, ht₁, hdht, ?_, ?_⟩
    · intro d hd
      by_cases hdt : d = t₁
      · subst hdt
        rw [Vec.cross_self]
      · have hx : d.sub t₁ ∈ (l.filter (fun v => v != t₁)).map (fun v => v.sub t₁) :=
          (hmem' _).mpr ⟨d, hd, hdt, rfl⟩
        have h1 := hmax (d.sub t₁) hx
        rw [hveq] at h1
        simp only [Vec.cross, Vec.sub] at h1 ⊢
        linarith
    · have h1 := hstrict dh hdh hdht
      simp only [Vec.cross] at h1
      simp only [Vec.cross, Vec.sub]
      linarith

/-- Vectors with equal dot products against u differ by a multiple of
the perpendicular of u. -/
theorem perp_par_of_dot_eq (u P Q : Vec) (hu : ¬(u.x = 0 ∧ u.y = 0))
    (h : u.dot P = u.dot Q) : ∃ c : ℚ, Q.sub P = (u.perp).scalar c := by
  apply parallel_of_cross_eq_zero u.perp _ (by simp only [Vec.perp, neg_eq_zero]; tauto)
  have hcz : u.perp.cross (Q.sub P) = -(u.dot Q) + u.dot P := by
    simp only [Vec.perp, Vec.cross, Vec.dot, Vec.sub]; ring
  rw [hcz, h]; ring

/-- Differences along a common direction subtract. -/
theorem sub_scalar_shift (P Q R s : Vec) (μ ν : ℚ)
    (h1 : Q.sub P = s.scalar μ) (h2 : R.sub P = s.scalar ν) :
    Q.sub R = s.scalar (μ - ν) := by
  have hx1 := congrArg Vec.x h1
  have hy1 := congrArg Vec.y h1
  have hx2 := congrArg Vec.x h2
  have hy2 := congrArg Vec.y h2
  simp only [Vec.sub, Vec.scalar] at hx1 hy1 hx2 hy2
  refine Vec.ext_q _ _ ?_ ?_ <;> simp only [Vec.sub, Vec.scalar]
  · linear_combination hx1 - hx2
  · linear_combination hy1 - hy2

/-- A vertex of a strictly convex polygon cannot lie strictly between
two other vertices along a common line. -/
theorem convex_middle_contra (σ : ℚ) (vs : List Vec) (hσ : σ = 1 ∨ σ = -1)
    (hc : StrictlyConvexPoly σ vs)
    (s : Vec) (o₁ mid o₂ : ℕ) (ho₁ : o₁ < vs.length) (hmid : mid < vs.length)
    (ho₂ : o₂ < vs.length) (h₁ : o₁ ≠ mid) (h₂ : o₂ ≠ mid) (h₁₂ : o₁ ≠ o₂)
    (μ₁ μ₂ : ℚ) (hμ₁ : (vs.getD o₁ default).sub (vs.getD mid default) = s.scalar μ₁)
    (hμ₂ : (vs.getD o₂ default).sub (vs.getD mid default) = s.scalar μ₂)
    (hneg : μ₁ < 0) (hpos : 0 < μ₂) : False := by
  by_cases hs₁ : o₁ = (mid + 1) % vs.length
  · have hs₂ : o₂ ≠ (mid + 1) % vs.length := fun h => h₁₂ (hs₁.trans h.symm)
    have hC := hc mid hmid o₂ ho₂ h₂ hs₂
    have hE : edgeOf vs mid = s.scalar μ₁ := by
      rw [edgeOf, ← hs₁]; exact hμ₁
    rw [hE, hμ₂, Vec.cross_scalar] at hC
    have hz : (s.scalar μ₁).cross s = 0 := by simp only [Vec.cross, Vec.scalar]; ring
    rw [hz] at hC
    norm_num at hC
  · by_cases hs₂ : o₂ = (mid + 1) % vs.length
    · have hC := hc mid hmid o₁ ho₁ h₁ hs₁
      have hE : edgeOf vs mid = s.scalar μ₂ := by
        rw [edgeOf, ← hs₂]; exact hμ₂
      rw [hE, hμ₁, Vec.cross_scalar] at hC
      have hz : (s.scalar μ₂).cross s = 0 := by simp only [Vec.cross, Vec.scalar]; ring
      rw [hz] at hC
      norm_num at hC
    · have hC₁ := hc mid hmid o₁ ho₁ h₁ hs₁
      have hC₂ := hc mid hmid o₂ ho₂ h₂ hs₂
      rw [hμ₁, Vec.cross_scalar] at hC₁
      rw [hμ₂, Vec.cross_scalar] at hC₂
      rcases hσ with rfl | rfl
      · rw [one_mul] at hC₁ hC₂
        rcases mul_pos_iff.mp hC₁ with ⟨hA, hB⟩ | ⟨hA, hB⟩
        · linarith
        · rcases mul_pos_iff.mp hC₂ with ⟨hA', hB'⟩ | ⟨hA', hB'⟩
          · linarith
          · linarith
      · have hC₁' : μ₁ * (edgeOf vs mid).cross s < 0 := by linarith
        have hC₂' : μ₂ * (edgeOf vs mid).cross s < 0 := by linarith
        rcases mul_neg_iff.mp hC₁' with ⟨hA, hB⟩ | ⟨hA, hB⟩
        · linarith
        · rcases mul_neg_iff.mp hC₂' with ⟨hA', hB'⟩ | ⟨hA', hB'⟩
          · linarith
          · linarith

/-- A linear functional attains its minimum over the vertices of a
strictly convex polygon at most twice. -/
theorem minimizers_le_two (σ : ℚ) (vs : List Vec) (hσ : σ = 1 ∨ σ = -1)
    (hc : StrictlyConvexPoly σ vs) (h3 : 3 ≤ vs.length)
    (u : Vec) (hu : ¬(u.x = 0 ∧ u.y = 0))
    (a m b : ℕ) (ha : a < vs.length) (hm : m < vs.length) (hb : b < vs.length)
    (ham : a ≠ m) (hmb : m ≠ b) (hba : b ≠ a)
    (h1 : u.dot (vs.getD a default) = u.dot (vs.getD m default))
    (h2 : u.dot (vs.getD a default) = u.dot (vs.getD b default))
    (_hminim : ∀ k, k < vs.length → u.dot (vs.getD a default) ≤ u.dot (vs.getD k default)) :
    False := by
  obtain ⟨lam1, hlam1⟩ := perp_par_of_dot_eq u _ _ hu h1
  obtain ⟨lam2, hlam2⟩ := perp_par_of_dot_eq u _ _ hu h2
  have hzero : (vs.getD a default).sub (vs.getD a default) = (u.perp).scalar 0 := by
    refine Vec.ext_q _ _ ?_ ?_ <;> simp [Vec.sub, Vec.scalar]
  have hdist : ∀ (i j : ℕ) (ci cj : ℚ), i < vs.length → j < vs.length → i ≠ j →
      (vs.getD i default).sub (vs.getD a default) = (u.perp).scalar ci →
      (vs.getD j default).sub (vs.getD a default) = (u.perp).scalar cj →
      ci ≠ cj := by
    intro i j ci cj hi hj hij hci hcj hcc
    subst hcc
    apply convex_vertices_distinct σ vs hc h3 i j hi hj hij
    have h' := hci.trans hcj.symm
    have hx := congrArg Vec.x h'
    have hy := congrArg Vec.y h'
    simp only [Vec.sub] at hx hy
    refine Vec.ext_q _ _ ?_ ?_ <;> linarith
  have h01 : (0 : ℚ) ≠ lam1 := hdist a m 0 lam1 ha hm ham hzero hlam1
  have h02 : (0 : ℚ) ≠ lam2 := hdist a b 0 lam2 ha hb (Ne.symm hba) hzero hlam2
  have h12 : lam1 ≠ lam2 := hdist m b lam1 lam2 hm hb hmb hlam1 hlam2
  rcases lt_trichotomy lam1 0 with hA | hA | hA
  · rcases lt_trichotomy lam2 0 with hB | hB | hB
    · rcases lt_trichotomy lam1 lam2 with hAB | hAB | hAB
      · exact convex_middle_contra σ vs hσ hc u.perp m b a hm hb ha hmb (Ne.symm hba)
          (Ne.symm ham) (lam1 - lam2) (0 - lam2)
          (sub_scalar_shift _ _ _ _ _ _ hlam1 hlam2)
          (sub_scalar_shift _ _ _ _ _ _ hzero hlam2)
          (by linarith) (by linarith)
      · exact h12 hAB
      · exact convex_middle_contra σ vs hσ hc u.perp b m a hb hm ha (Ne.symm hmb) ham
          hba (lam2 - lam1) (0 - lam1)
          (sub_scalar_shift _ _ _ _ _ _ hlam2 hlam1)
          (sub_scalar_shift _ _ _ _ _ _ hzero hlam1)
          (by linarith) (by linarith)
    · exact h02 hB.symm
    · exact convex_middle_contra σ vs hσ hc u.perp m a b hm ha hb (Ne.symm ham) hba
        hmb lam1 lam2 hlam1 hlam2 hA hB
  · exact h01 hA.symm
  · rcases lt_trichotomy lam2 0 with hB | hB | hB
    · exact convex_middle_contra σ vs hσ hc u.perp b a m hb ha hm hba (Ne.symm ham)
        (Ne.symm hmb) lam2 lam1 hlam2 hlam1 hB hA
    · exact h02 hB.symm
    · rcases lt_trichotomy lam1 lam2 with hAB | hAB | hAB
      · exact convex_middle_contra σ vs hσ hc u.perp a m b ha hm hb ham (Ne.symm hmb)
          (Ne.symm hba) (0 - lam1) (lam2 - lam1)
          (sub_scalar_shift _ _ _ _ _ _ hzero hlam1)
          (sub_scalar_shift _ _ _ _ _ _ hlam2 hlam1)
          (by linarith) (by linarith)
      · exact h12 hAB
      · exact convex_middle_contra σ vs hσ hc u.perp a b m ha hb hm (Ne.symm hba) hmb
          ham (0 - lam2) (lam1 - lam2)
          (sub_scalar_shift _ _ _ _ _ _ hzero hlam2)
          (sub_scalar_shift _ _ _ _ _ _ hlam1 hlam2)
          (by linarith) (by linarith)

/-- Two distinct minimizers of a linear functional over the vertices of
a strictly convex polygon are cyclically adjacent. -/
theorem minimizers_adjacent (σ : ℚ) (vs : List Vec) (hσ : σ = 1 ∨ σ = -1)
    (hc : StrictlyConvexPoly σ vs) (h3 : 3 ≤ vs.length)
    (u : Vec) (hu : ¬(u.x = 0 ∧ u.y = 0))
    (i j : ℕ) (hi : i < vs.length) (hj : j < vs.length) (hij : i ≠ j)
    (heq : u.dot (vs.getD i default) = u.dot (vs.getD j default))
    (hminim : ∀ k, k < vs.length → u.dot (vs.getD i default) ≤ u.dot (vs.getD k default)) :
    j = (i + 1) % vs.length ∨ i = (j + 1) % vs.length := by
  by_contra hcon
  push_neg at hcon
  obtain ⟨hnadj1, hnadj2⟩ := hcon
  have hn : 0 < vs.length := by omega
  have hsilt : (i + 1) % vs.length < vs.length := Nat.mod_lt _ hn
  have hsjlt : (j + 1) % vs.length < vs.length := Nat.mod_lt _ hn
  have hsii : (i + 1) % vs.length ≠ i := mod_shift_ne vs.length i 1 hi (by omega) (by omega)
  have hsjj : (j + 1) % vs.length ≠ j := mod_shift_ne vs.length j 1 hj (by omega) (by omega)
  have hstep1 : u.dot (vs.getD i default) < u.dot (vs.getD ((i + 1) % vs.length) default) := by
    rcases lt_or_eq_of_le (hminim _ hsilt) with h | h
    · exact h
    · exact absurd h (fun h' => minimizers_le_two σ vs hσ hc h3 u hu i j
        ((i + 1) % vs.length) hi hj hsilt hij (fun he => hnadj1 he) hsii heq h' hminim)
  have hstep2 : u.dot (vs.getD j default) < u.dot (vs.getD ((j + 1) % vs.length) default) := by
    have hsji : (j + 1) % vs.length ≠ i := fun h' => hnadj2 h'.symm
    rcases lt_or_eq_of_le (hminim _ hsjlt) with h | h
    · rw [← heq]; exact h
    · exact absurd h (fun h' => minimizers_le_two σ vs hσ hc h3 u hu i j
        ((j + 1) % vs.length) hi hj hsjlt hij (Ne.symm hsjj) hsji heq h' hminim)
  obtain ⟨lam, hlam⟩ := perp_par_of_dot_eq u _ _ hu heq
  have hCi := hc i hi j hj (Ne.symm hij) hnadj1
  rw [hlam, Vec.cross_scalar, Vec.cross_perp] at hCi
  have hEi : 0 < (edgeOf vs i).dot u := by
    have h' : (edgeOf vs i).dot u =
        u.dot (vs.getD ((i + 1) % vs.length) default) - u.dot (vs.getD i default) := by
      simp only [edgeOf, Vec.dot, Vec.sub]; ring
    rw [h']
    linarith
  have hCj := hc j hj i hi hij hnadj2
  have hlam' : (vs.getD i default).sub (vs.getD j default) = (u.perp).scalar (-lam) := by
    have hx := congrArg Vec.x hlam
    have hy := congrArg Vec.y hlam
    simp only [Vec.sub, Vec.scalar] at hx hy
    refine Vec.ext_q _ _ ?_ ?_ <;> simp only [Vec.sub, Vec.scalar] <;> linarith
  rw [hlam', Vec.cross_scalar, Vec.cross_perp] at hCj
  have hEj : 0 < (edgeOf vs j).dot u := by
    have h' : (edgeOf vs j).dot u =
        u.dot (vs.getD ((j + 1) % vs.length) default) - u.dot (vs.getD j default) := by
      simp only [edgeOf, Vec.dot, Vec.sub]; ring
    rw [h']
    linarith
  rcases hσ with rfl | rfl
  · rw [one_mul] at hCi hCj
    rcases mul_pos_iff.mp hCi with ⟨hA, hB⟩ | ⟨hA, hB⟩
    · rcases mul_pos_iff.mp hCj with ⟨hA', hB'⟩ | ⟨hA', hB'⟩
      · linarith
      · linarith
    · linarith
  · have hCi' : lam * (edgeOf vs i).dot u < 0 := by linarith
    have hCj' : 0 < lam * (edgeOf vs j).dot u := by linarith
    rcases mul_neg_iff.mp hCi' with ⟨hA, hB⟩ | ⟨hA, hB⟩
    · linarith
    · rcases mul_pos_iff.mp hCj' with ⟨hA', hB'⟩ | ⟨hA', hB'⟩
      · linarith
      · linarith

/-- The running minimum of the projection fold only decreases and
bounds every projection of the scanned list; it keeps the initial value
or is attained at a member. -/
theorem projPair_min (a : Vec) :
    ∀ (l : List Vec) (init : ℚ × ℚ),
    ((l.foldl (fun i w => (Min.min i.1 (w.dot a), Max.max i.2 (w.dot a))) init).1 ≤ init.1
     ∧ ∀ v ∈ l, (l.foldl (fun i w => (Min.min i.1 (w.dot a), Max.max i.2 (w.dot a))) init).1 ≤ v.dot a)
    ∧ ((l.foldl (fun i w => (Min.min i.1 (w.dot a), Max.max i.2 (w.dot a))) init).1 = init.1
       ∨ ∃ v ∈ l, (l.foldl (fun i w => (Min.min i.1 (w.dot a), Max.max i.2 (w.dot a))) init).1 = v.dot a) := by
  intro l
  induction l with
  | nil =>
    intro init
    exact ⟨⟨le_refl _, fun v hv => absurd hv (List.not_mem_nil v)⟩, Or.inl rfl⟩
  | cons x t ih =>
    intro init
    simp only [List.foldl_cons]
    obtain ⟨⟨hle, hall⟩, hatt⟩ := ih (Min.min init.1 (x.dot a), Max.max init.2 (x.dot a))
    constructor
    · constructor
      · exact le_trans hle (min_le_left _ _)
      · intro v hv
        rcases List.mem_cons.mp hv with rfl | hv'
        · exact le_trans hle (min_le_right _ _)
        · exact hall v hv'
    · rcases hatt with h | ⟨v, hv, hveq⟩
      · rcases le_or_lt init.1 (x.dot a) with hcmp | hcmp
        · left; rw [h]; exact min_eq_left hcmp
        · right; exact ⟨x, List.mem_cons_self x t, by rw [h]; exact min_eq_right hcmp.le⟩
      · right; exact ⟨v, List.mem_cons_of_mem x hv, hveq⟩

/-- The running maximum of the projection fold only increases and
dominates every projection of the scanned list; it keeps the initial
value or is attained at a member. -/
theorem projPair_max (a : Vec) :
    ∀ (l : List Vec) (init : ℚ × ℚ),
    (init.2 ≤ (l.foldl (fun i w => (Min.min i.1 (w.dot a), Max.max i.2 (w.dot a))) init).2
     ∧ ∀ v ∈ l, v.dot a ≤ (l.foldl (fun i w => (Min.min i.1 (w.dot a), Max.max i.2 (w.dot a))) init).2)
    ∧ ((l.foldl (fun i w => (Min.min i.1 (w.dot a), Max.max i.2 (w.dot a))) init).2 = init.2
       ∨ ∃ v ∈ l, (l.foldl (fun i w => (Min.min i.1 (w.dot a), Max.max i.2 (w.dot a))) init).2 = v.dot a) := by
  intro l
  induction l with
  | nil =>
    intro init
    exact ⟨⟨le_refl _, fun v hv => absurd hv (List.not_mem_nil v)⟩, Or.inl rfl⟩
  | cons x t ih =>
    intro init
    simp only [List.foldl_cons]
    obtain ⟨⟨hle, hall⟩, hatt⟩ := ih (Min.min init.1 (x.dot a), Max.max init.2 (x.dot a))
    constructor
    · constructor
      · exact le_trans (le_max_left _ _) hle
      · intro v hv
        rcases List.mem_cons.mp hv with rfl | hv'
        · exact le_trans (le_max_right _ _) hle
        · exact hall v hv'
    · rcases hatt with h | ⟨v, hv, hveq⟩
      · rcases le_or_lt (x.dot a) init.2 with hcmp | hcmp
        · left; rw [h]; exact max_eq_left hcmp
        · right; exact ⟨x, List.mem_cons_self x t, by rw [h]; exact max_eq_right hcmp.le⟩
      · right; exact ⟨v, List.mem_cons_of_mem x hv, hveq⟩

/-- The projection interval bounds every member's projection. -/
theorem projectToAxis_bounds (vs : List Vec) (a : Vec) (v : Vec) (hv : v ∈ vs) :
    (projectToAxis vs a).1 ≤ v.dot a ∧ v.dot a ≤ (projectToAxis vs a).2 := by
  cases vs with
  | nil => cases hv
  | cons x t =>
    simp only [projectToAxis]
    obtain ⟨⟨hle1, hall1⟩, -⟩ := projPair_min a t (x.dot a, x.dot a)
    obtain ⟨⟨hle2, hall2⟩, -⟩ := projPair_max a t (x.dot a, x.dot a)
    rcases List.mem_cons.mp hv with rfl | hv'
    · exact ⟨hle1, hle2⟩
    · exact ⟨hall1 v hv', hall2 v hv'⟩

/-- The lower end of the projection interval is attained on a nonempty
list. -/
theorem projectToAxis_min_mem (x : Vec) (t : List Vec) (a : Vec) :
    ∃ v ∈ x :: t, (projectToAxis (x :: t) a).1 = v.dot a := by
  simp only [projectToAxis]
  obtain ⟨-, hatt⟩ := projPair_min a t (x.dot a, x.dot a)
  rcases hatt with h | ⟨v, hv, hveq⟩
  · exact ⟨x, List.mem_cons_self x t, h⟩
  · exact ⟨v, List.mem_cons_of_mem x hv, hveq⟩

/-- The upper end of the projection interval is attained on a nonempty
list. -/
theorem projectToAxis_max_mem (x : Vec) (t : List Vec) (a : Vec) :
    ∃ v ∈ x :: t, (projectToAxis (x :: t) a).2 = v.dot a := by
  simp only [projectToAxis]
  obtain ⟨-, hatt⟩ := projPair_max a t (x.dot a, x.dot a)
  rcases hatt with h | ⟨v, hv, hveq⟩
  · exact ⟨x, List.mem_cons_self x t, h⟩
  · exact ⟨v, List.mem_cons_of_mem x hv, hveq⟩

/-- The single-axis overlap is symmetric in the two vertex lists. -/
theorem overlapOn_comm (v1 v2 : List Vec) (a : Vec) :
    overlapOn v2 v1 a = overlapOn v1 v2 a := by
  simp only [overlapOn]
  exact min_comm _ _

/-- A pointwise separation along an axis makes the SAT overlap on that
axis non-positive. -/
theorem overlapOn_nonpos (v1 v2 : List Vec) (a : Vec)
    (h1 : v1 ≠ []) (h2 : v2 ≠ []) (hsep : SepOnAxis v1 v2 a) :
    overlapOn v1 v2 a ≤ 0 := by
  obtain ⟨x1, t1, rfl⟩ := List.exists_cons_of_ne_nil h1
  obtain ⟨x2, t2, rfl⟩ := List.exists_cons_of_ne_nil h2
  rcases hsep with hsep | hsep
  · -- projections of v2 all below projections of v1: interval2.2 ≤ interval1.1
    obtain ⟨q, hq, hqe⟩ := projectToAxis_max_mem x2 t2 a
    obtain ⟨p, hp, hpe⟩ := projectToAxis_min_mem x1 t1 a
    have hpq := hsep p hp q hq
    rw [Vec.dot_comm a q, Vec.dot_comm a p] at hpq
    refine le_trans (min_le_right _ _) ?_
    rw [hqe, hpe]
    linarith
  · obtain ⟨p, hp, hpe⟩ := projectToAxis_max_mem x1 t1 a
    obtain ⟨q, hq, hqe⟩ := projectToAxis_min_mem x2 t2 a
    have hpq := hsep p hp q hq
    rw [Vec.dot_comm a q, Vec.dot_comm a p] at hpq
    refine le_trans (min_le_left _ _) ?_
    rw [hpe, hqe]
    linarith

/-- If some axis in the scanned list has non-positive overlap, the SAT
loop reports a separating axis whatever its running best is. -/
theorem overlapAxesGo_none (v1 v2 : List Vec) :
    ∀ (axes : List Vec) (best : Option (ℚ × Vec)),
    (∃ a ∈ axes, overlapOn v1 v2 a ≤ 0) →
    overlapAxesGo v1 v2 axes best = none := by
  intro axes
  induction axes with
  | nil =>
    rintro best ⟨a, ha, -⟩
    cases ha
  | cons x t ih =>
    rintro best ⟨a, ha, hov⟩
    simp only [overlapAxesGo]
    by_cases hx : Min.min ((projectToAxis v1 x).2 - (projectToAxis v2 x).1)
        ((projectToAxis v2 x).2 - (projectToAxis v1 x).1) ≤ 0
    · rw [if_pos hx]
    · rw [if_neg hx]
      have hta : a ∈ t := by
        rcases List.mem_cons.mp ha with rfl | ha'
        · exact absurd (by simpa [overlapOn] using hov) hx
        · exact ha'
      cases best with
      | none => exact ih _ ⟨a, hta, hov⟩
      | some b0 =>
        split
        all_goals try split
        all_goals exact ih _ ⟨a, hta, hov⟩

/-- An axis with non-positive overlap makes overlapAxes report the
separation. -/
theorem overlapAxes_eq_none (v1 v2 axes : List Vec) (a : Vec) (ha : a ∈ axes)
    (hov : overlapOn v1 v2 a ≤ 0) : overlapAxes v1 v2 axes = none :=
  overlapAxesGo_none v1 v2 axes none ⟨a, ha, hov⟩

/-- When either SAT scan finds a separating axis, the collision test
reports no collision. -/
theorem collisionTest_not_colliding (b1 b2 : Body)
    (h : overlapAxes b1.vertices b2.vertices b1.axes = none ∨
         overlapAxes b2.vertices b1.vertices b2.axes = none) :
    (Collision.test b1 b2).colliding = false := by
  rcases h with h | h
  · simp only [Collision.test, h]
    rfl
  · cases hab : overlapAxes b1.vertices b2.vertices b1.axes with
    | none =>
      simp only [Collision.test, hab]
      rfl
    | some ab =>
      simp only [Collision.test, hab, h]
      rfl

/-- Membership in the difference list. -/
theorem mem_diffList (ps qs : List Vec) (d : Vec) :
    d ∈ diffList ps qs ↔ ∃ p ∈ ps, ∃ q ∈ qs, d = p.sub q := by
  simp only [diffList, List.mem_flatMap, List.mem_map]
  constructor
  · rintro ⟨p, hp, q, hq, rfl⟩
    exact ⟨p, hp, q, hq, rfl⟩
  · rintro ⟨p, hp, q, hq, rfl⟩
    exact ⟨p, hp, q, hq, rfl⟩

/-- Separation is preserved by scaling the axis. -/
theorem sepOnAxis_scalar (ps qs : List Vec) (a : Vec) (c : ℚ) (hc : c ≠ 0)
    (h : SepOnAxis ps qs a) : SepOnAxis ps qs (a.scalar c) := by
  rcases lt_or_gt_of_ne hc with hneg | hpos
  · rcases h with h | h
    · right
      intro p hp q hq
      have hle := h p hp q hq
      rw [Vec.scalar_dot, Vec.scalar_dot]
      nlinarith
    · left
      intro p hp q hq
      have hle := h p hp q hq
      rw [Vec.scalar_dot, Vec.scalar_dot]
      nlinarith
  · rcases h with h | h
    · left
      intro p hp q hq
      have hle := h p hp q hq
      rw [Vec.scalar_dot, Vec.scalar_dot]
      nlinarith
    · right
      intro p hp q hq
      have hle := h p hp q hq
      rw [Vec.scalar_dot, Vec.scalar_dot]
      nlinarith

/-- Separation is reflected by unscaling the axis. -/
theorem sepOnAxis_unscale (ps qs : List Vec) (a : Vec) (c : ℚ) (hc : c ≠ 0)
    (h : SepOnAxis ps qs (a.scalar c)) : SepOnAxis ps qs a := by
  have h' := sepOnAxis_scalar ps qs (a.scalar c) c⁻¹ (inv_ne_zero hc) h
  rwa [Vec.scalar_scalar, mul_inv_cancel₀ hc, Vec.scalar_one] at h'

/-- An axis perpendicular to a direction that separates the two vertex
lists also separates them when the direction is recovered through the
edge's perpendicular. -/
theorem sepOnAxis_of_perp_edge (ps qs : List Vec) (u e : Vec)
    (hu : ¬(u.x = 0 ∧ u.y = 0)) (he : ¬(e.x = 0 ∧ e.y = 0))
    (hperp : u.dot e = 0) (hsep : SepOnAxis ps qs u) :
    SepOnAxis ps qs e.perp := by
  have hpz : ¬(e.perp.x = 0 ∧ e.perp.y = 0) := by
    simp only [Vec.perp, neg_eq_zero]
    tauto
  obtain ⟨c, hcu⟩ : ∃ c : ℚ, u = (e.perp).scalar c := by
    apply parallel_of_cross_eq_zero e.perp u hpz
    have hz : e.perp.cross u = -(u.dot e) := by
      simp only [Vec.perp, Vec.cross, Vec.dot]; ring
    rw [hz, hperp]
    ring
  have hc0 : c ≠ 0 := by
    intro h0
    rw [h0] at hcu
    apply hu
    have hx := congrArg Vec.x hcu
    have hy := congrArg Vec.y hcu
    simp only [Vec.scalar, mul_zero] at hx hy
    exact ⟨hx, hy⟩
  rw [hcu] at hsep
  exact sepOnAxis_unscale ps qs e.perp c hc0 hsep

/-- Every edge of a strictly convex polygon with at least three
vertices is nonzero. -/
theorem edge_ne_zero (σ : ℚ) (vs : List Vec) (hc : StrictlyConvexPoly σ vs)
    (h3 : 3 ≤ vs.length) (k : ℕ) (hk : k < vs.length) :
    ¬((edgeOf vs k).x = 0 ∧ (edgeOf vs k).y = 0) := by
  rintro ⟨hx, hy⟩
  have hn : 0 < vs.length := by omega
  have hl : (k + 2) % vs.length < vs.length := Nat.mod_lt _ hn
  have hne1 : (k + 2) % vs.length ≠ k :=
    mod_shift_ne vs.length k 2 hk (by omega) (by omega)
  have hne2 : (k + 2) % vs.length ≠ (k + 1) % vs.length :=
    mod_succ_ne vs.length k (by omega)
  have hC := hc k hk ((k + 2) % vs.length) hl hne1 hne2
  simp only [Vec.cross, hx, hy, zero_mul, sub_zero, mul_zero] at hC
  norm_num at hC

/-- Under a strict directional separation, the perpendicular of some
edge of one of the two strictly convex polygons separates all
projections. -/
theorem sep_edge_exists (σ₁ σ₂ : ℚ) (ps qs : List Vec)
    (hσ₁ : σ₁ = 1 ∨ σ₁ = -1) (hσ₂ : σ₂ = 1 ∨ σ₂ = -1)
    (hc₁ : StrictlyConvexPoly σ₁ ps) (hc₂ : StrictlyConvexPoly σ₂ qs)
    (h₃p : 3 ≤ ps.length) (h₃q : 3 ≤ qs.length)
    (w : Vec) (hw : ∀ p ∈ ps, ∀ q ∈ qs, 0 < w.dot (p.sub q)) :
    (∃ k < ps.length, SepOnAxis ps qs ((edgeOf ps k).perp)) ∨
    (∃ k < qs.length, SepOnAxis ps qs ((edgeOf qs k).perp)) := by
  have hD : ∀ d ∈ diffList ps qs, 0 < w.dot d := by
    intro d hd
    obtain ⟨p, hp, q, hq, rfl⟩ := (mem_diffList ps qs d).mp hd
    exact hw p hp q hq
  have hp0 : ps.getD 0 default ∈ ps := getD_mem_of_lt ps 0 (by omega)
  have hp1 : ps.getD 1 default ∈ ps := getD_mem_of_lt ps 1 (by omega)
  have hq0 : qs.getD 0 default ∈ qs := getD_mem_of_lt qs 0 (by omega)
  have hp01 : ps.getD 0 default ≠ ps.getD 1 default :=
    convex_vertices_distinct σ₁ ps hc₁ h₃p 0 1 (by omega) (by omega) (by omega)
  have hd0 : (ps.getD 0 default).sub (qs.getD 0 default) ∈ diffList ps qs :=
    (mem_diffList ps qs _).mpr ⟨_, hp0, _, hq0, rfl⟩
  have hd1 : (ps.getD 1 default).sub (qs.getD 0 default) ∈ diffList ps qs :=
    (mem_diffList ps qs _).mpr ⟨_, hp1, _, hq0, rfl⟩
  have hd01 : (ps.getD 0 default).sub (qs.getD 0 default) ≠
      (ps.getD 1 default).sub (qs.getD 0 default) := by
    intro h
    apply hp01
    have hx := congrArg Vec.x h
    have hy := congrArg Vec.y h
    simp only [Vec.sub] at hx hy
    refine Vec.ext_q _ _ ?_ ?_ <;> linarith
  obtain ⟨a, haD, b, hbD, hab, hV1, hV2⟩ :=
    visible_pair w (diffList ps qs) hD _ _ hd0 hd1 hd01
  obtain ⟨p₁, hp₁, q₁, hq₁, haeq⟩ := (mem_diffList ps qs a).mp haD
  obtain ⟨p₂, hp₂, q₂, hq₂, hbeq⟩ := (mem_diffList ps qs b).mp hbD
  subst haeq
  subst hbeq
  have husep : ∀ p ∈ ps, ∀ q ∈ qs,
      (((p₂.sub q₂).sub (p₁.sub q₁)).perp).dot q ≤
      (((p₂.sub q₂).sub (p₁.sub q₁)).perp).dot p := by
    intro p hp q hq
    have h1 := hV1 (p.sub q) ((mem_diffList ps qs _).mpr ⟨p, hp, q, hq, rfl⟩)
    have h3 := Vec.cross_sub ((p₂.sub q₂).sub (p₁.sub q₁)) (p.sub q) (p₁.sub q₁)
    have h2 : 0 ≤ ((p₂.sub q₂).sub (p₁.sub q₁)).cross (p.sub q) := by
      linarith [hV2]
    rw [Vec.perp_dot, Vec.perp_dot]
    have h4 := Vec.cross_sub ((p₂.sub q₂).sub (p₁.sub q₁)) p q
    linarith
  have hu : SepOnAxis ps qs (((p₂.sub q₂).sub (p₁.sub q₁)).perp) := Or.inl husep
  have huz : ¬((((p₂.sub q₂).sub (p₁.sub q₁)).perp).x = 0 ∧
      (((p₂.sub q₂).sub (p₁.sub q₁)).perp).y = 0) := by
    rintro ⟨hx, hy⟩
    apply hab
    simp only [Vec.perp, Vec.sub, neg_eq_zero] at hx hy
    refine Vec.ext_q _ _ ?_ ?_ <;> simp only [Vec.sub] <;> linarith
  by_cases hpp : p₁ = p₂
  · have hqq : q₁ ≠ q₂ := by
      intro h
      apply hab
      rw [hpp, h]
    have hqmax1 : ∀ q ∈ qs, (((p₂.sub q₂).sub (p₁.sub q₁)).perp).dot q ≤
        (((p₂.sub q₂).sub (p₁.sub q₁)).perp).dot q₁ := by
      intro q hq
      have h1 := hV1 (p₁.sub q) ((mem_diffList ps qs _).mpr ⟨p₁, hp₁, q, hq, rfl⟩)
      rw [Vec.perp_dot, Vec.perp_dot]
      simp only [Vec.cross, Vec.sub] at h1 ⊢
      linarith
    have hqmax2 : ∀ q ∈ qs, (((p₂.sub q₂).sub (p₁.sub q₁)).perp).dot q ≤
        (((p₂.sub q₂).sub (p₁.sub q₁)).perp).dot q₂ := by
      intro q hq
      have h1 := hV1 (p₂.sub q) ((mem_diffList ps qs _).mpr ⟨p₂, hp₂, q, hq, rfl⟩)
      have h1' : 0 ≤ ((p₂.sub q₂).sub (p₁.sub q₁)).cross ((p₂.sub q).sub (p₂.sub q₂)) := by
        have hid : ((p₂.sub q₂).sub (p₁.sub q₁)).cross ((p₂.sub q).sub (p₂.sub q₂)) =
            ((p₂.sub q₂).sub (p₁.sub q₁)).cross ((p₂.sub q).sub (p₁.sub q₁)) -
            ((p₂.sub q₂).sub (p₁.sub q₁)).cross ((p₂.sub q₂).sub (p₁.sub q₁)) := by
          simp only [Vec.cross, Vec.sub]; ring
        rw [hid, Vec.cross_self]
        linarith
      rw [Vec.perp_dot, Vec.perp_dot]
      simp only [Vec.cross, Vec.sub] at h1' ⊢
      linarith
    obtain ⟨i, hilt, hieq⟩ := List.getElem_of_mem hq₁
    obtain ⟨j, hjlt, hjeq⟩ := List.getElem_of_mem hq₂
    have hieq' : qs.getD i default = q₁ := by
      rw [List.getD_eq_getElem qs default hilt]; exact hieq
    have hjeq' : qs.getD j default = q₂ := by
      rw [List.getD_eq_getElem qs default hjlt]; exact hjeq
    have hij : i ≠ j := by
      intro h
      apply hqq
      rw [← hieq', ← hjeq', h]
    have hneq : ((((p₂.sub q₂).sub (p₁.sub q₁)).perp).scalar (-1)).dot (qs.getD i default) =
        ((((p₂.sub q₂).sub (p₁.sub q₁)).perp).scalar (-1)).dot (qs.getD j default) := by
      rw [Vec.scalar_dot, Vec.scalar_dot, hieq', hjeq']
      have hle1 := hqmax1 q₂ hq₂
      have hle2 := hqmax2 q₁ hq₁
      linarith
    have hnmin : ∀ k, k < qs.length →
        ((((p₂.sub q₂).sub (p₁.sub q₁)).perp).scalar (-1)).dot (qs.getD i default) ≤
        ((((p₂.sub q₂).sub (p₁.sub q₁)).perp).scalar (-1)).dot (qs.getD k default) := by
      intro k hk
      rw [Vec.scalar_dot, Vec.scalar_dot, hieq']
      have hle := hqmax1 (qs.getD k default) (getD_mem_of_lt qs k hk)
      linarith
    have hnz : ¬(((((p₂.sub q₂).sub (p₁.sub q₁)).perp).scalar (-1)).x = 0 ∧
        ((((p₂.sub q₂).sub (p₁.sub q₁)).perp).scalar (-1)).y = 0) := by
      rintro ⟨hx, hy⟩
      apply huz
      simp only [Vec.scalar] at hx hy
      constructor <;> linarith
    rcases minimizers_adjacent σ₂ qs hσ₂ hc₂ h₃q _ hnz i j hilt hjlt hij hneq hnmin
      with hadj | hadj
    · right
      refine ⟨i, hilt, ?_⟩
      have hperp : (((p₂.sub q₂).sub (p₁.sub q₁)).perp).dot (edgeOf qs i) = 0 := by
        rw [edgeOf, ← hadj, hjeq', hieq', Vec.dot_sub]
        have hle1 := hqmax1 q₂ hq₂
        have hle2 := hqmax2 q₁ hq₁
        linarith
      exact sepOnAxis_of_perp_edge ps qs _ _ huz
        (edge_ne_zero σ₂ qs hc₂ h₃q i hilt) hperp hu
    · right
      refine ⟨j, hjlt, ?_⟩
      have hperp : (((p₂.sub q₂).sub (p₁.sub q₁)).perp).dot (edgeOf qs j) = 0 := by
        rw [edgeOf, ← hadj, hieq', hjeq', Vec.dot_sub]
        have hle1 := hqmax1 q₂ hq₂
        have hle2 := hqmax2 q₁ hq₁
        linarith
      exact sepOnAxis_of_perp_edge ps qs _ _ huz
        (edge_ne_zero σ₂ qs hc₂ h₃q j hjlt) hperp hu
  · have hpmin1 : ∀ p ∈ ps, (((p₂.sub q₂).sub (p₁.sub q₁)).perp).dot p₁ ≤
        (((p₂.sub q₂).sub (p₁.sub q₁)).perp).dot p := by
      intro p hp
      have h1 := hV1 (p.sub q₁) ((mem_diffList ps qs _).mpr ⟨p, hp, q₁, hq₁, rfl⟩)
      rw [Vec.perp_dot, Vec.perp_dot]
      simp only [Vec.cross, Vec.sub] at h1 ⊢
      linarith
    have hpmin2 : ∀ p ∈ ps, (((p₂.sub q₂).sub (p₁.sub q₁)).perp).dot p₂ ≤
        (((p₂.sub q₂).sub (p₁.sub q₁)).perp).dot p := by
      intro p hp
      have h1 := hV1 (p.sub q₂) ((mem_diffList ps qs _).mpr ⟨p, hp, q₂, hq₂, rfl⟩)
      have h1' : 0 ≤ ((p₂.sub q₂).sub (p₁.sub q₁)).cross ((p.sub q₂).sub (p₂.sub q₂)) := by
        have hid : ((p₂.sub q₂).sub (p₁.sub q₁)).cross ((p.sub q₂).sub (p₂.sub q₂)) =
            ((p₂.sub q₂).sub (p₁.sub q₁)).cross ((p.sub q₂).sub (p₁.sub q₁)) -
            ((p₂.sub q₂).sub (p₁.sub q₁)).cross ((p₂.sub q₂).sub (p₁.sub q₁)) := by
          simp only [Vec.cross, Vec.sub]; ring
        rw [hid, Vec.cross_self]
        linarith
      rw [Vec.perp_dot, Vec.perp_dot]
      simp only [Vec.cross, Vec.sub] at h1' ⊢
      linarith
    obtain ⟨i, hilt, hieq⟩ := List.getElem_of_mem hp₁
    obtain ⟨j, hjlt, hjeq⟩ := List.getElem_of_mem hp₂
    have hieq' : ps.getD i default = p₁ := by
      rw [List.getD_eq_getElem ps default hilt]; exact hieq
    have hjeq' : ps.getD j default = p₂ := by
      rw [List.getD_eq_getElem ps default hjlt]; exact hjeq
    have hij : i ≠ j := fun h => hpp (by rw [← hieq', ← hjeq', h])
    have heqd : (((p₂.sub q₂).sub (p₁.sub q₁)).perp).dot (ps.getD i default) =
        (((p₂.sub q₂).sub (p₁.sub q₁)).perp).dot (ps.getD j default) := by
      rw [hieq', hjeq']
      have hle1 := hpmin1 p₂ hp₂
      have hle2 := hpmin2 p₁ hp₁
      linarith
    have hmind : ∀ k, k < ps.length →
        (((p₂.sub q₂).sub (p₁.sub q₁)).perp).dot (ps.getD i default) ≤
        (((p₂.sub q₂).sub (p₁.sub q₁)).perp).dot (ps.getD k default) := by
      intro k hk
      rw [hieq']
      exact hpmin1 (ps.getD k default) (getD_mem_of_lt ps k hk)
    rcases minimizers_adjacent σ₁ ps hσ₁ hc₁ h₃p _ huz i j hilt hjlt hij heqd hmind
      with hadj | hadj
    · left
      refine ⟨i, hilt, ?_⟩
      have hperp : (((p₂.sub q₂).sub (p₁.sub q₁)).perp).dot (edgeOf ps i) = 0 := by
        rw [edgeOf, ← hadj, hjeq', hieq', Vec.dot_sub]
        have hle1 := hpmin1 p₂ hp₂
        have hle2 := hpmin2 p₁ hp₁
        linarith
      exact sepOnAxis_of_perp_edge ps qs _ _ huz
        (edge_ne_zero σ₁ ps hc₁ h₃p i hilt) hperp hu
    · left
      refine ⟨j, hjlt, ?_⟩
      have hperp : (((p₂.sub q₂).sub (p₁.sub q₁)).perp).dot (edgeOf ps j) = 0 := by
        rw [edgeOf, ← hadj, hieq', hjeq', Vec.dot_sub]
        have hle1 := hpmin1 p₂ hp₂
        have hle2 := hpmin2 p₁ hp₁
        linarith
      exact sepOnAxis_of_perp_edge ps qs _ _ huz
        (edge_ne_zero σ₁ ps hc₁ h₃p j hjlt) hperp hu

/-- The bounds fold only widens the box and covers every scanned
vertex. -/
theorem boundsFold (l : List Vec) :
    ∀ (B : Bounds),
    ((l.foldl (fun b w =>
        ⟨⟨Min.min b.min.x w.x, Min.min b.min.y w.y⟩,
         ⟨Max.max b.max.x w.x, Max.max b.max.y w.y⟩⟩) B).min.x ≤ B.min.x ∧
     (l.foldl (fun b w =>
        ⟨⟨Min.min b.min.x w.x, Min.min b.min.y w.y⟩,
         ⟨Max.max b.max.x w.x, Max.max b.max.y w.y⟩⟩) B).min.y ≤ B.min.y ∧
     B.max.x ≤ (l.foldl (fun b w =>
        ⟨⟨Min.min b.min.x w.x, Min.min b.min.y w.y⟩,
         ⟨Max.max b.max.x w.x, Max.max b.max.y w.y⟩⟩) B).max.x ∧
     B.max.y ≤ (l.foldl (fun b w =>
        ⟨⟨Min.min b.min.x w.x, Min.min b.min.y w.y⟩,
         ⟨Max.max b.max.x w.x, Max.max b.max.y w.y⟩⟩) B).max.y) ∧
    ∀ v ∈ l,
      (l.foldl (fun b w =>
        ⟨⟨Min.min b.min.x w.x, Min.min b.min.y w.y⟩,
         ⟨Max.max b.max.x w.x, Max.max b.max.y w.y⟩⟩) B).min.x ≤ v.x ∧
      (l.foldl (fun b w =>
        ⟨⟨Min.min b.min.x w.x, Min.min b.min.y w.y⟩,
         ⟨Max.max b.max.x w.x, Max.max b.max.y w.y⟩⟩) B).min.y ≤ v.y ∧
      v.x ≤ (l.foldl (fun b w =>
        ⟨⟨Min.min b.min.x w.x, Min.min b.min.y w.y⟩,
         ⟨Max.max b.max.x w.x, Max.max b.max.y w.y⟩⟩) B).max.x ∧
      v.y ≤ (l.foldl (fun b w =>
        ⟨⟨Min.min b.min.x w.x, Min.min b.min.y w.y⟩,
         ⟨Max.max b.max.x w.x, Max.max b.max.y w.y⟩⟩) B).max.y := by
  induction l with
  | nil =>
    intro B
    exact ⟨⟨le_refl _, le_refl _, le_refl _, le_refl _⟩,
      fun v hv => absurd hv (List.not_mem_nil v)⟩
  | cons x t ih =>
    intro B
    simp only [List.foldl_cons]
    obtain ⟨⟨h1, h2, h3, h4⟩, hall⟩ := ih ⟨⟨Min.min B.min.x x.x, Min.min B.min.y x.y⟩,
      ⟨Max.max B.max.x x.x, Max.max B.max.y x.y⟩⟩
    refine ⟨⟨le_trans h1 (min_le_left _ _), le_trans h2 (min_le_left _ _),
      le_trans (le_max_left _ _) h3, le_trans (le_max_left _ _) h4⟩, ?_⟩
    intro v hv
    rcases List.mem_cons.mp hv with rfl | hv'
    · exact ⟨le_trans h1 (min_le_right _ _), le_trans h2 (min_le_right _ _),
        le_trans (le_max_right _ _) h3, le_trans (le_max_right _ _) h4⟩
    · exact hall v hv'

/-- The bounding box of a vertex list contains every vertex. -/
theorem fromVertices_mem (vs : List Vec) (v : Vec) (hv : v ∈ vs) :
    (Bounds.fromVertices vs).min.x ≤ v.x ∧ v.x ≤ (Bounds.fromVertices vs).max.x ∧
    (Bounds.fromVertices vs).min.y ≤ v.y ∧ v.y ≤ (Bounds.fromVertices vs).max.y := by
  cases vs with
  | nil => cases hv
  | cons x t =>
    simp only [Bounds.fromVertices]
    obtain ⟨⟨h1, h2, h3, h4⟩, hall⟩ := boundsFold t ⟨x, x⟩
    rcases List.mem_cons.mp hv with rfl | hv'
    · exact ⟨h1, h3, h2, h4⟩
    · obtain ⟨g1, g2, g3, g4⟩ := hall v hv'
      exact ⟨g1, g3, g2, g4⟩

/-- The narrow-phase fold only accumulates collisions that passed the
SAT test. -/
theorem narrowPhaseFold_colliding (bodies : List Body) :
    ∀ (pairs : List (ℕ × ℕ)) (acc : List Coll),
    (∀ c ∈ acc, (Collision.test (getB bodies c.i1) (getB bodies c.i2)).colliding = true) →
    ∀ c ∈ pairs.foldl (fun acc p =>
      let r := Collision.test (getB bodies p.1) (getB bodies p.2)
      if r.colliding then acc ++ [⟨p.1, p.2, r⟩] else acc) acc,
    (Collision.test (getB bodies c.i1) (getB bodies c.i2)).colliding = true := by
  intro pairs
  induction pairs with
  | nil => intro acc hacc c hc; exact hacc c hc
  | cons p t ih =>
    intro acc hacc c hc
    simp only [List.foldl_cons] at hc
    refine ih _ ?_ c hc
    intro c' hc'
    by_cases hcol : (Collision.test (getB bodies p.1) (getB bodies p.2)).colliding = true
    · rw [if_pos hcol] at hc'
      rcases List.mem_append.mp hc' with h | h
      · exact hacc c' h
      · have hceq : c' = ⟨p.1, p.2, Collision.test (getB bodies p.1) (getB bodies p.2)⟩ := by
          simpa using h
        subst hceq
        exact hcol
    · rw [if_neg hcol] at hc'
      exact hacc c' hc'

/-- Every collision recorded by the narrow phase passed the SAT test. -/
theorem mem_narrowPhase_colliding (bodies : List Body) (pairs : List (ℕ × ℕ))
    (c : Coll) (hc : c ∈ narrowPhase bodies pairs) :
    (Collision.test (getB bodies c.i1) (getB bodies c.i2)).colliding = true := by
  rw [narrowPhase] at hc
  exact narrowPhaseFold_colliding bodies pairs []
    (fun c' hc' => absurd hc' (List.not_mem_nil c')) c hc

/-- C7: for two bodies whose vertex lists are strictly convex polygons
(in either orientation), whose stored axes cover their edges and whose
stored bounds are the bounding boxes of their vertices - all guaranteed
by the vertices setter of Body - disjoint bounding boxes make the SAT
test report no collision in both argument orders, and the narrow phase
therefore never records a collision between them. -/
theorem C7_aabb_separation (b1 b2 : Body) (σ₁ σ₂ : ℚ)
    (hσ₁ : σ₁ = 1 ∨ σ₁ = -1) (hσ₂ : σ₂ = 1 ∨ σ₂ = -1)
    (hc₁ : StrictlyConvexPoly σ₁ b1.vertices) (hc₂ : StrictlyConvexPoly σ₂ b2.vertices)
    (h₃p : 3 ≤ b1.vertices.length) (h₃q : 3 ≤ b2.vertices.length)
    (hax₁ : AxesMatchEdges b1.vertices b1.axes) (hax₂ : AxesMatchEdges b2.vertices b2.axes)
    (hb₁ : b1.bounds = Bounds.fromVertices b1.vertices)
    (hb₂ : b2.bounds = Bounds.fromVertices b2.vertices)
    (hd : BoundsDisjoint b1.bounds b2.bounds) :
    (Collision.test b1 b2).colliding = false ∧
    (Collision.test b2 b1).colliding = false ∧
    ∀ (bodies : List Body) (pairs : List (ℕ × ℕ)) (c : Coll),
      c ∈ narrowPhase bodies pairs →
      ¬((getB bodies c.i1 = b1 ∧ getB bodies c.i2 = b2) ∨
        (getB bodies c.i1 = b2 ∧ getB bodies c.i2 = b1)) := by
  have hne1 : b1.vertices ≠ [] := by
    intro h
    rw [h] at h₃p
    simp at h₃p
  have hne2 : b2.vertices ≠ [] := by
    intro h
    rw [h] at h₃q
    simp at h₃q
  have hwex : ∃ w : Vec, ∀ p ∈ b1.vertices, ∀ q ∈ b2.vertices, 0 < w.dot (p.sub q) := by
    rw [hb₁, hb₂] at hd
    simp only [BoundsDisjoint] at hd
    rcases hd with h | h | h | h
    · refine ⟨⟨-1, 0⟩, fun p hp q hq => ?_⟩
      have hpb := (fromVertices_mem b1.vertices p hp).2.1
      have hqb := (fromVertices_mem b2.vertices q hq).1
      simp only [Vec.dot, Vec.sub]
      linarith
    · refine ⟨⟨1, 0⟩, fun p hp q hq => ?_⟩
      have hpb := (fromVertices_mem b1.vertices p hp).1
      have hqb := (fromVertices_mem b2.vertices q hq).2.1
      simp only [Vec.dot, Vec.sub]
      linarith
    · refine ⟨⟨0, -1⟩, fun p hp q hq => ?_⟩
      have hpb := (fromVertices_mem b1.vertices p hp).2.2.2
      have hqb := (fromVertices_mem b2.vertices q hq).2.2.1
      simp only [Vec.dot, Vec.sub]
      linarith
    · refine ⟨⟨0, 1⟩, fun p hp q hq => ?_⟩
      have hpb := (fromVertices_mem b1.vertices p hp).2.2.1
      have hqb := (fromVertices_mem b2.vertices q hq).2.2.2
      simp only [Vec.dot, Vec.sub]
      linarith
  obtain ⟨w, hw⟩ := hwex
  have hsepE := sep_edge_exists σ₁ σ₂ b1.vertices b2.vertices hσ₁ hσ₂ hc₁ hc₂ h₃p h₃q w hw
  have hnone : overlapAxes b1.vertices b2.vertices b1.axes = none ∨
      overlapAxes b2.vertices b1.vertices b2.axes = none := by
    rcases hsepE with ⟨k, hk, hsep⟩ | ⟨k, hk, hsep⟩
    · obtain ⟨ax, haxmem, c, hc0, haxeq⟩ := hax₁ k hk
      have hsep' : SepOnAxis b1.vertices b2.vertices ax := by
        rw [haxeq]
        exact sepOnAxis_scalar _ _ _ c hc0 hsep
      left
      exact overlapAxes_eq_none _ _ _ ax haxmem
        (overlapOn_nonpos _ _ ax hne1 hne2 hsep')
    · obtain ⟨ax, haxmem, c, hc0, haxeq⟩ := hax₂ k hk
      have hsep' : SepOnAxis b1.vertices b2.vertices ax := by
        rw [haxeq]
        exact sepOnAxis_scalar _ _ _ c hc0 hsep
      right
      refine overlapAxes_eq_none _ _ _ ax haxmem ?_
      rw [overlapOn_comm]
      exact overlapOn_nonpos _ _ ax hne1 hne2 hsep'
  refine ⟨collisionTest_not_colliding b1 b2 hnone,
    collisionTest_not_colliding b2 b1 (Or.symm hnone), ?_⟩
  intro bodies pairs c hc hor
  have hcol := mem_narrowPhase_colliding bodies pairs c hc
  rcases hor with ⟨h1, h2⟩ | ⟨h1, h2⟩
  · rw [h1, h2, collisionTest_not_colliding b1 b2 hnone] at hcol
    simp at hcol
  · rw [h1, h2, collisionTest_not_colliding b2 b1 (Or.symm hnone)] at hcol
    simp at hcol

/-- The first witness square is strictly convex, counter-clockwise. -/
theorem squareA_convex : StrictlyConvexPoly 1 squareBodyA.vertices := by
  intro k hk l hl hlk hlk1
  have hk4 : k < 4 := by simpa [squareBodyA, mkTestBody] using hk
  have hl4 : l < 4 := by simpa [squareBodyA, mkTestBody] using hl
  have hlk1' : l ≠ (k + 1) % 4 := by simpa [squareBodyA, mkTestBody] using hlk1
  interval_cases k <;> interval_cases l <;>
    first
      | omega
      | norm_num [edgeOf, squareBodyA, mkTestBody, Vec.cross, Vec.sub]

/-- The second witness square is strictly convex, counter-clockwise. -/
theorem squareB_convex : StrictlyConvexPoly 1 squareBodyB.vertices := by
  intro k hk l hl hlk hlk1
  have hk4 : k < 4 := by simpa [squareBodyB, mkTestBody] using hk
  have hl4 : l < 4 := by simpa [squareBodyB, mkTestBody] using hl
  have hlk1' : l ≠ (k + 1) % 4 := by simpa [squareBodyB, mkTestBody] using hlk1
  interval_cases k <;> interval_cases l <;>
    first
      | omega
      | norm_num [edgeOf, squareBodyB, mkTestBody, Vec.cross, Vec.sub]

/-- The axes stored in the first witness square cover its edges. -/
theorem squareA_axes : AxesMatchEdges squareBodyA.vertices squareBodyA.axes := by
  intro k hk
  have hk4 : k < 4 := by simpa [squareBodyA, mkTestBody] using hk
  interval_cases k
  · exact ⟨⟨0, 1⟩, by simp [squareBodyA, mkTestBody], 1, one_ne_zero,
      by norm_num [edgeOf, squareBodyA, mkTestBody, Vec.perp, Vec.sub, Vec.scalar]⟩
  · exact ⟨⟨-1, 0⟩, by simp [squareBodyA, mkTestBody], 1, one_ne_zero,
      by norm_num [edgeOf, squareBodyA, mkTestBody, Vec.perp, Vec.sub, Vec.scalar]⟩
  · exact ⟨⟨0, 1⟩, by simp [squareBodyA, mkTestBody], -1, by norm_num,
      by norm_num [edgeOf, squareBodyA, mkTestBody, Vec.perp, Vec.sub, Vec.scalar]⟩
  · exact ⟨⟨-1, 0⟩, by simp [squareBodyA, mkTestBody], -1, by norm_num,
      by norm_num [edgeOf, squareBodyA, mkTestBody, Vec.perp, Vec.sub, Vec.scalar]⟩

/-- The axes stored in the second witness square cover its edges. -/
theorem squareB_axes : AxesMatchEdges squareBodyB.vertices squareBodyB.axes := by
  intro k hk
  have hk4 : k < 4 := by simpa [squareBodyB, mkTestBody] using hk
  interval_cases k
  · exact ⟨⟨0, 1⟩, by simp [squareBodyB, mkTestBody], 1, one_ne_zero,
      by norm_num [edgeOf, squareBodyB, mkTestBody, Vec.perp, Vec.sub, Vec.scalar]⟩
  · exact ⟨⟨-1, 0⟩, by simp [squareBodyB, mkTestBody], 1, one_ne_zero,
      by norm_num [edgeOf, squareBodyB, mkTestBody, Vec.perp, Vec.sub, Vec.scalar]⟩
  · exact ⟨⟨0, 1⟩, by simp [squareBodyB, mkTestBody], -1, by norm_num,
      by norm_num [edgeOf, squareBodyB, mkTestBody, Vec.perp, Vec.sub, Vec.scalar]⟩
  · exact ⟨⟨-1, 0⟩, by simp [squareBodyB, mkTestBody], -1, by norm_num,
      by norm_num [edgeOf, squareBodyB, mkTestBody, Vec.perp, Vec.sub, Vec.scalar]⟩

/-- The two witness squares have disjoint bounding boxes. -/
theorem squares_disjoint : BoundsDisjoint squareBodyA.bounds squareBodyB.bounds := by
  have h : squareBodyA.bounds.max.x < squareBodyB.bounds.min.x := by
    norm_num [squareBodyA, squareBodyB, mkTestBody, Bounds.fromVertices,
      List.foldl_cons, List.foldl_nil]
  exact Or.inl h

/-- The AABB-separation theorem applies to the two distant squares. -/
theorem C7_aabb_separation_witness :
    (Collision.test squareBodyA squareBodyB).colliding = false ∧
    (Collision.test squareBodyB squareBodyA).colliding = false := by
  have h := C7_aabb_separation squareBodyA squareBodyB 1 1 (Or.inl rfl) (Or.inl rfl)
    squareA_convex squareB_convex
    (by norm_num [squareBodyA, mkTestBody])
    (by norm_num [squareBodyB, mkTestBody])
    squareA_axes squareB_axes rfl rfl squares_disjoint
  exact ⟨h.1, h.2.1⟩
